import Mathlib

/-
Verification of SprayDryFS (src/spraydryfs) against its specification.

Shallow embedding conventions:
 - bytes are Nat values (0..255) and byte strings are List Nat;
 - Python text strings are List Char where character-level reasoning is
   needed (the algosplit / algojoin spec strings) and String for plain
   identifiers (method names);
 - SQLite tables are lists of row structures in insertion order; INTEGER
   PRIMARY KEY assignment is one plus the largest id in use, matching
   SQLite rowid assignment without AUTOINCREMENT;
 - a SAVEPOINT is modelled by remembering the entire store state and
   ROLLBACK TO + RELEASE by restoring it;
 - fallible Python code (raise) is modelled with Option / Except.
-/

/- ==================================================================
Definitions: the shallow embedding of the SprayDryFS source.
================================================================== -/

/-- Error raised by the nocompress rehydrator when the decoded length does
not match the recorded size (RuntimeError in rehydrate.py, line 202). -/
inductive RehydrateError where
  | badChunkSize : Nat → List Nat → RehydrateError
deriving DecidableEq

/-- make_dryer for the nocompress algorithm (spraydry.py line 256): the
encoder is the identity function on chunk bytes. -/
def nocompress_encode (x : List Nat) : List Nat := x

/-- make_rehydrator_single for the nocompress algorithm (rehydrate.py lines
200..203): return the payload unchanged after checking that its length
equals the recorded chunk size, raising RuntimeError otherwise. -/
def nocompress_rehydrator (chunksize : Nat) (chunkdata : List Nat) :
    Except RehydrateError (List Nat) :=
  if ¬ chunksize = chunkdata.length then
    Except.error (RehydrateError.badChunkSize chunksize chunkdata)
  else Except.ok chunkdata

/-- The names of the methods defined on the Rehydrator class
(rehydrate.py lines 22..177). -/
def rehydratorMethodNames : List String :=
  ["__init__", "__enter__", "__exit__", "close", "root", "attributes",
   "entry", "listgen", "pread", "preadgen", "rehydrators", "roots"]

/-- Reserved root inode constant (pyfuse3.ROOT_INODE). -/
def ROOT_INODE : Nat := 1

/-- Python error outcomes of the FS bridge read path. -/
inductive PyErr where
  | attributeError : String → PyErr
deriving DecidableEq

/-- SprayDryFS.read (fuse.py lines 213..229). For fh = ROOT_INODE it
returns self._rehydrator.pread(self._root.file, off, size). For any other
fh the source evaluates self._rehydrator.pread_entry(fh - offset, ...);
the Rehydrator class defines no attribute of that name (see
rehydratorMethodNames), so the attribute lookup raises AttributeError,
embedded here as the error branch. preadFn stands for the bound
Rehydrator.pread. -/
def sprayDryFS_read (preadFn : Nat → Nat → Nat → List Nat) (rootfile : Nat)
    (fh off size : Nat) : Except PyErr (List Nat) :=
  if fh = ROOT_INODE then Except.ok (preadFn rootfile off size)
  else Except.error (PyErr.attributeError ("pread_entry"))

/-- A row of the file table: id INTEGER PRIMARY KEY, hash BLOB,
rehydrate INTEGER, UNIQUE (hash, rehydrate). -/
structure FileRow where
  id : Nat
  hash : List Nat
  rehydrate : Nat
deriving DecidableEq

/-- A row of the chunkhash table: id INTEGER PRIMARY KEY, rehydrate, size,
data BLOB (the chunk hash), UNIQUE (rehydrate, data). -/
structure ChunkHashRow where
  id : Nat
  rehydrate : Nat
  size : Nat
  data : List Nat
deriving DecidableEq

/-- A row of the chunk table: id references chunkhash, data BLOB holds the
encoded payload. -/
structure ChunkRow where
  id : Nat
  data : List Nat
deriving DecidableEq

/-- A row of the content table: PRIMARY KEY (file, rehydrate, offset). -/
structure ContentSQLRow where
  file : Nat
  rehydrate : Nat
  offset : Nat
  size : Nat
  chunk : Nat
deriving DecidableEq

/-- A row of the entry table: id INTEGER PRIMARY KEY, directory and file
referencing file rows, name BLOB, isdirectory BOOL, mode BLOB (the two
mode bytes), size INTEGER, UNIQUE (directory, name). -/
structure EntryRow where
  id : Nat
  directory : Nat
  name : List Nat
  isdirectory : Bool
  mode : List Nat
  size : Nat
  file : Nat
deriving DecidableEq

/-- The mutable store: the five tables touched by the ingest write path,
each as a list of rows in insertion order. -/
structure Store where
  files : List FileRow
  chunkhashes : List ChunkHashRow
  chunks : List ChunkRow
  contents : List ContentSQLRow
  entries : List EntryRow
deriving DecidableEq

/-- SQLite rowid assignment for INTEGER PRIMARY KEY without AUTOINCREMENT:
one larger than the largest rowid in use (1 on an empty table). -/
def nextRowId (ids : List Nat) : Nat := ids.foldr max 0 + 1

/-- The ingest configuration held by a SprayDryStore: the hash algorithm
name, its digest function (mkhashobj + update + digest; updating with a
sequence of segments digests their concatenation), the rehydrate id and
the dryer (encoder). -/
structure SDSConfig where
  hashname : List Nat
  digest : List Nat → List Nat
  rehydrate : Nat
  dryer : List Nat → List Nat

/-- SprayDryStore.hash (spraydry.py lines 37..40): algo name, an ASCII
dash (45), then the digest bytes. -/
def SDSConfig.hash (cfg : SDSConfig) (indata : List Nat) : List Nat :=
  cfg.hashname ++ [45] ++ cfg.digest indata

/-- The tagged fake hash used by SprayDryStore.tmpid (spraydry.py line 42):
algo name, an ASCII underscore (95), then the digest of the path. -/
def SDSConfig.fakehash (cfg : SDSConfig) (path : List Nat) : List Nat :=
  cfg.hashname ++ [95] ++ cfg.digest path

/-- SprayDryStore.tmpid (spraydry.py lines 41..50): INSERT OR IGNORE a
preliminary file row carrying the fake path hash; when the insert is
ignored because a row with the same (hash, rehydrate) exists, fetchone
yields no row and a ValueError is raised (modelled as none). -/
def tmpid (cfg : SDSConfig) (st : Store) (path : List Nat) :
    Option (Store × Nat) :=
  let fakehsh := cfg.fakehash path
  if st.files.any (fun f => f.hash == fakehsh && f.rehydrate == cfg.rehydrate) then
    none
  else
    let i := nextRowId (st.files.map FileRow.id)
    some ({ st with files := st.files ++ [⟨i, fakehsh, cfg.rehydrate⟩] }, i)

/-- SprayDryStore.store_chunk (spraydry.py lines 51..78). INSERT OR IGNORE
into chunkhash on the UNIQUE (rehydrate, data) constraint; on conflict the
id of the existing row is selected and returned and no chunk body is
written; on a fresh insert the encoded body is inserted into chunk under
the same id. The conflict test and the subsequent SELECT are both the
first row matching (rehydrate, data). -/
def store_chunk (cfg : SDSConfig) (st : Store) (chunk : List Nat) :
    Store × Nat :=
  let chunkhsh := cfg.hash chunk
  match st.chunkhashes.find?
      (fun c => c.rehydrate == cfg.rehydrate && c.data == chunkhsh) with
  | some row => (st, row.id)
  | none =>
    let i := nextRowId (st.chunkhashes.map ChunkHashRow.id)
    ({ st with
        chunkhashes := st.chunkhashes ++ [⟨i, cfg.rehydrate, chunk.length, chunkhsh⟩],
        chunks := st.chunks ++ [⟨i, cfg.dryer chunk⟩] }, i)

/-- SprayDryStore.store_content (spraydry.py lines 79..89): INSERT OR
IGNORE a content row copying rehydrate and size from the chunkhash row of
the given chunk id; inserts nothing when no such chunkhash row exists or
when the (file, rehydrate, offset) primary key is already taken. -/
def store_content (_cfg : SDSConfig) (st : Store) (fileid offset chunkid : Nat) :
    Store :=
  match st.chunkhashes.find? (fun c => c.id == chunkid) with
  | none => st
  | some ch =>
    if st.contents.any (fun r =>
        r.file == fileid && r.rehydrate == ch.rehydrate && r.offset == offset) then st
    else { st with contents := st.contents ++ [⟨fileid, ch.rehydrate, offset, ch.size, chunkid⟩] }

/-- The INSERT OR IGNORE INTO entry statement of SprayDryStore.dry_directory
(spraydry.py lines 128..135): insert a child row under the UNIQUE
(directory, name) constraint, ignoring the insert on conflict. -/
def store_entry (st : Store) (directory : Nat) (name : List Nat)
    (isdirectory : Bool) (mode : List Nat) (size : Nat) (file : Nat) : Store :=
  if st.entries.any (fun e => e.directory == directory && e.name == name) then st
  else { st with entries := st.entries ++
    [⟨nextRowId (st.entries.map EntryRow.id), directory, name, isdirectory, mode, size, file⟩] }

/-- SprayDryStore.dry_file (spraydry.py lines 90..112). The savepoint is
the state at entry; ROLLBACK TO + RELEASE restores it. The chunker output
over the memory-mapped file is passed in as the list of (offset, chunk)
pairs; the running file hash after updating with every chunk is the
digest of their concatenation. After storing all chunks, if a file row
with (final hash, rehydrate) already exists the savepoint is rolled back
and that row's id is returned; otherwise the preliminary row's hash is
updated to the final hash and the savepoint is released. -/
def dry_file (cfg : SDSConfig) (st : Store) (path : List Nat)
    (chunks : List (Nat × List Nat)) : Option (Store × Nat × List Nat) :=
  let savepoint := st
  match tmpid cfg st path with
  | none => none
  | some (st1, fileid) =>
    let st2 := chunks.foldl (fun s oc =>
      let sc := store_chunk cfg s oc.2
      store_content cfg sc.1 fileid oc.1 sc.2) st1
    let filehash := cfg.hash ((chunks.map Prod.snd).flatten)
    match st2.files.find?
        (fun f => f.hash == filehash && f.rehydrate == cfg.rehydrate) with
    | some existing => some (savepoint, existing.id, filehash)
    | none =>
      let upd := fun f : FileRow => if f.id == fileid then { f with hash := filehash } else f
      some ({ st2 with files := st2.files.map upd }, fileid, filehash)

/-- make_modebytes (spraydry.py lines 181..182): st_mode.to_bytes(2,
little-endian), i.e. the low 16 bits as two bytes, low byte first
(st_mode always fits 16 bits; Python would raise OverflowError above). -/
def make_modebytes (mode : Nat) : List Nat := [mode % 256, mode / 256 % 256]

/-- ASCII code of the lowercase hex digit for d < 16 (bytes.hex()). -/
def hexDigitCode (d : Nat) : Nat := if d < 10 then 48 + d else 87 + d

/-- bytes.hex().encode(utf-8): two lowercase ASCII hex digits per byte. -/
def bytesHex (bs : List Nat) : List Nat :=
  (bs.map (fun b => [hexDigitCode (b / 16), hexDigitCode (b % 16)])).flatten

/-- One child of a directory as seen by dry_directory: the raw name bytes
relative to the directory, the final hash returned by the recursive dry
call, and the stat fields it consumes (mode, size, the S_ISDIR flag) plus
the child file row id. -/
structure DirChild where
  name : List Nat
  hash : List Nat
  mode : Nat
  size : Nat
  isdir : Bool
  id : Nat
deriving DecidableEq

/-- The entry segment fed into the directory running hash for one child
(spraydry.py lines 121..126): a 0x00 byte, the child hash, the child
mode bytes, and the lowercase hex encoding of the child name bytes. -/
def entrysegment (c : DirChild) : List Nat :=
  [0] ++ c.hash ++ make_modebytes c.mode ++ bytesHex c.name

/-- Byte-lexicographic comparison used to model sorted(path.iterdir())
for children of one directory. -/
def lexLe : List Nat → List Nat → Bool
  | [], _ => true
  | _ :: _, [] => false
  | a :: as, b :: bs => if a < b then true else if b < a then false else lexLe as bs

/-- Stable insertion into a sorted list (model of the stable sort
performed by sorted()). -/
def insertLe {α : Type} (le : α → α → Bool) (a : α) : List α → List α
  | [] => [a]
  | b :: l => if le a b then a :: b :: l else b :: insertLe le a l

/-- Stable insertion sort (model of Python sorted()). -/
def sortLe {α : Type} (le : α → α → Bool) : List α → List α
  | [] => []
  | a :: l => insertLe le a (sortLe le l)

/-- dry_directory iterates children in sorted order by name. -/
def sortChildren (children : List DirChild) : List DirChild :=
  sortLe (fun a b => lexLe a.name b.name) children

/-- The final hash computed by SprayDryStore.dry_directory (spraydry.py
lines 113..148): the configured digest of the concatenation, in sorted
child order, of the entry segments, prefixed by the hash algorithm name
and an ASCII dash. -/
def dry_directory_hash (hashname : List Nat) (digestF : List Nat → List Nat)
    (children : List DirChild) : List Nat :=
  hashname ++ [45] ++ digestF (((sortChildren children).map entrysegment).flatten)

/-- The projection of a child to the data the directory hash may use. -/
def childKey (c : DirChild) : List Nat × List Nat × Nat := (c.name, c.hash, c.mode)

/-- The entry segment as a function of the projected data only. -/
def childKeySegment (t : List Nat × List Nat × Nat) : List Nat :=
  [0] ++ t.2.1 ++ make_modebytes t.2.2 ++ bytesHex t.1

/-- A source tree as consumed by SprayDryStore.dry (spraydry.py lines
149..158): the stat dispatch S_ISREG / S_ISDIR is encoded in the
constructor, which carries the stat fields the ingestor reads (st_mode,
st_size). A regular file carries the (offset, chunk) pairs its chunker
yields over the memory-mapped content; a directory carries its children
with their raw name bytes, already in the sorted iteration order of
sorted(path.iterdir()). Unsupported file types (which raise ValueError
before any store access) are not represented. -/
inductive FSTree where
  | file : Nat → Nat → List (Nat × List Nat) → FSTree
  | dir : Nat → Nat → List (List Nat × FSTree) → FSTree

/-- st_mode of the node's stat. -/
def FSTree.mode : FSTree → Nat
  | FSTree.file m _ _ => m
  | FSTree.dir m _ _ => m

/-- st_size of the node's stat. -/
def FSTree.size : FSTree → Nat
  | FSTree.file _ s _ => s
  | FSTree.dir _ s _ => s

/-- S_ISDIR of the node's stat. -/
def FSTree.isdir : FSTree → Bool
  | FSTree.file _ _ _ => false
  | FSTree.dir _ _ _ => true

mutual

/-- SprayDryStore.dry (spraydry.py lines 149..158) together with the body
of dry_directory (lines 113..148): a regular file is ingested by
dry_file; for a directory, a savepoint is taken, a preliminary file row
inserted, the children processed in order (recursive dry, running-hash
update with the entry segment, entry row insert), and then, exactly as
in dry_file, a file row with the final hash and the same rehydrate id
makes the call roll the savepoint back (restoring the state at entry,
discarding the preliminary file row, all child rows and all entry rows)
and return the existing id, while otherwise the preliminary hash is
updated and the savepoint released. -/
def dry (cfg : SDSConfig) (st : Store) (path : List Nat) :
    FSTree → Option (Store × Nat × List Nat)
  | FSTree.file _mode _size chunks => dry_file cfg st path chunks
  | FSTree.dir _mode _size children =>
    let savepoint := st
    match tmpid cfg st path with
    | none => none
    | some (st1, fileid) =>
      match dry_children cfg fileid path st1 children with
      | none => none
      | some (st2, segs) =>
        let filehash := cfg.hash segs
        match st2.files.find?
            (fun f => f.hash == filehash && f.rehydrate == cfg.rehydrate) with
        | some existing => some (savepoint, existing.id, filehash)
        | none =>
          let upd := fun f : FileRow =>
            if f.id == fileid then { f with hash := filehash } else f
          some ({ st2 with files := st2.files.map upd }, fileid, filehash)

/-- The child loop of SprayDryStore.dry_directory (spraydry.py lines
117..135): for each child, recurse (dry), build the entry segment
0x00 || childhash || modebytes || hex(name) that is fed to the running
directory hash, and insert the entry row. Returns the resulting store
and the concatenation of the entry segments (the running hash input);
a failing child aborts the loop (the exception propagates). The child
path (entry) is the directory path extended with a slash and the child
name. -/
def dry_children (cfg : SDSConfig) (fileid : Nat) (path : List Nat) :
    Store → List (List Nat × FSTree) → Option (Store × List Nat)
  | st, [] => some (st, [])
  | st, (name, sub) :: rest =>
    match dry cfg st (path ++ [47] ++ name) sub with
    | none => none
    | some (st1, childid, childhash) =>
      let entrymodebytes := make_modebytes sub.mode
      let seg := [0] ++ childhash ++ entrymodebytes ++ bytesHex name
      let st2 := store_entry st1 fileid name sub.isdir entrymodebytes sub.size childid
      match dry_children cfg fileid path st2 rest with
      | none => none
      | some (st3, segs) => some (st3, seg ++ segs)

end

/-- SprayDryStore.dry_directory (spraydry.py lines 113..148), as the
directory branch of dry applied to the given children; the directory's
own st_mode and st_size are consumed only by the caller (root or the
parent's entry row), not by dry_directory itself, so they are passed as
zero here. -/
def dry_directory (cfg : SDSConfig) (st : Store) (path : List Nat)
    (children : List (List Nat × FSTree)) : Option (Store × Nat × List Nat) :=
  dry cfg st path (FSTree.dir 0 0 children)

/-- Python range(start, stop, step) for a positive step: the arithmetic
progression start, start + step, ... strictly below stop (Python raises
ValueError for step = 0; the chunkers only use positive steps). -/
def rangeStep (start stop step : Nat) : List Nat :=
  List.range' start ((stop - start + step - 1) / step) step

/-- The inner sub-splitting loop of mk_spray_crc32 (spraydry.py lines
355..357), and the general shape shared with the fixed chunker: for each
interior border ib in range(start, stop, step), the slice of indata from
ib to min(stop, ib + step). -/
def sliceChunks (indata : List Nat) (start stop step : Nat) :
    List (Nat × List Nat) :=
  (rangeStep start stop step).map
    (fun ib => (ib, (indata.drop ib).take (min stop (ib + step) - ib)))

/-- The yielded (offset, chunk) pairs are contiguous starting at k: each
offset equals the running total of the preceding chunk lengths plus k. -/
def contiguousFrom : Nat → List (Nat × List Nat) → Prop
  | _, [] => True
  | k, c :: rest => c.1 = k ∧ contiguousFrom (k + c.2.length) rest

/-- mk_spray_fixed (spraydry.py lines 340..344): for offset in
range(0, len(indata), size) yield (offset, indata[offset : offset + size]). -/
def mk_spray_fixed (size : Nat) (indata : List Nat) : List (Nat × List Nat) :=
  (rangeStep 0 indata.length size).map
    (fun offset => (offset, (indata.drop offset).take size))

/-- One round of the CRC-32 bit loop: shift right, conditionally xor the
reflected polynomial 0xEDB88320. -/
def crc32round (t : Nat) : Nat :=
  if t % 2 = 1 then (t / 2) ^^^ 0xEDB88320 else t / 2

/-- The CRC-32 table entry for index i: eight bit rounds. -/
def crc32table (i : Nat) : Nat :=
  crc32round (crc32round (crc32round (crc32round
    (crc32round (crc32round (crc32round (crc32round i)))))))

/-- zlib.crc32 of the single byte b with running value seed: complement
the seed, one table step, complement back (all within 32 bits). -/
def crc32byte (b seed : Nat) : Nat :=
  let c := (seed % 4294967296) ^^^ 4294967295
  (crc32table ((c ^^^ b) % 256) ^^^ (c / 256)) ^^^ 4294967295

/-- The loop body of the chunker returned by mk_spray_crc32 (spraydry.py
lines 346..362), recursing over the remaining bytes. position is the
index of the byte b being consumed, border the start of the unemitted
region and rolling the accumulated CRC. On a cut (rolling below the
cutoff, at least minimum bytes past the border) the region
[border, position) is emitted via the inner sub-splitting loop
(sliceChunks with step maximum) and the border advances to position.
After the loop the non-empty trailing slice indata[border:] is emitted. -/
def spray_crc32_loop (indata : List Nat) (cutoff minimum maximum : Nat) :
    List Nat → Nat → Nat → Nat → List (Nat × List Nat)
  | [], _position, border, _rolling =>
    let lastchunk := indata.drop border
    if lastchunk = [] then [] else [(border, lastchunk)]
  | b :: rest, position, border, rolling =>
    let r := crc32byte b rolling
    if r < cutoff then
      if position - border < minimum then
        spray_crc32_loop indata cutoff minimum maximum rest (position + 1) border r
      else
        sliceChunks indata border position maximum
          ++ spray_crc32_loop indata cutoff minimum maximum rest (position + 1) position r
    else
      spray_crc32_loop indata cutoff minimum maximum rest (position + 1) border r

/-- The crc32 content-defined chunker (spraydry.py mk_spray_crc32). -/
def mk_spray_crc32 (initializer cutoff minimum maximum : Nat)
    (indata : List Nat) : List (Nat × List Nat) :=
  spray_crc32_loop indata cutoff minimum maximum indata 0 0 initializer

/-- A chunker output covers the input: the offsets equal the running sum
of the chunk lengths starting at 0, the concatenation of the chunks is
the input, and the offsets are strictly increasing. -/
def isCover (l : List Nat) (out : List (Nat × List Nat)) : Prop :=
  contiguousFrom 0 out ∧ (out.map Prod.snd).flatten = l
    ∧ List.Chain' (fun a b : Nat × List Nat => a.1 < b.1) out

/-- One row of the join in Rehydrator.preadgen (rehydrate.py lines
119..128): the content offset co.offset, the recorded size co.size and
the stored chunk payload ch.data. -/
structure PreadRow where
  offset : Nat
  size : Nat
  data : List Nat
deriving DecidableEq

/-- Rehydrator.preadgen (rehydrate.py lines 113..136). The SQL selects
the rows whose range [co.offset, co.offset + co.size) intersects
[offset, offset + size) in offset order; for each row the chunk is
decoded (rehydrator(co.rehydrate, co.size, ch.data), abstracted as dec)
and either yielded whole, when it lies strictly inside the window, or
sliced as chunk[max(offset - co.offset, 0) : min(offset + size -
co.offset, co.size)] (Nat subtraction realises the max with 0; the stop
bound is positive for selected rows). -/
def preadgen (dec : List Nat → List Nat) (rows : List PreadRow)
    (offset size : Nat) : List (List Nat) :=
  rows.filterMap (fun co =>
    if offset < co.offset + co.size ∧ co.offset < offset + size then
      let chunk := dec co.data
      some (if offset < co.offset ∧ co.offset + co.size < offset + size then chunk
            else (chunk.drop (offset - co.offset)).take
              (min (offset + size - co.offset) co.size - (offset - co.offset)))
    else none)

/-- Rehydrator.pread (rehydrate.py lines 108..112): the concatenation of
the preadgen blocks. -/
def pread (dec : List Nat → List Nat) (rows : List PreadRow)
    (offset size : Nat) : List Nat :=
  (preadgen dec rows offset size).flatten

/-- The content rows of a file whose rows form a contiguous,
non-overlapping cover in offset order starting at b and whose chunks
decode to their recorded sizes: row i carries the running-sum offset,
the decoded length as its recorded size, and the stored payload. Every
file satisfying the hypotheses of the round-trip claim is of this shape,
with original bytes (raws.map dec).flatten. -/
def mkPreadRows (dec : List Nat → List Nat) : Nat → List (List Nat) → List PreadRow
  | _, [] => []
  | b, raw :: rest =>
    ⟨b, (dec raw).length, raw⟩ :: mkPreadRows dec (b + (dec raw).length) rest

/-- Python str.isspace, the per-character predicate that str.split()
with no argument and str.strip() act on: the exact set of code points
for which Python reports whitespace (ASCII control whitespace 0x09-0x0D
and 0x1C-0x20, NEL 0x85, NBSP 0xA0, Ogham space 0x1680, the Zs range
0x2000-0x200A, line and paragraph separators 0x2028-0x2029, narrow NBSP
0x202F, mathematical space 0x205F and ideographic space 0x3000). -/
def pyIsSpace (c : Char) : Bool :=
  decide ((9 ≤ c.toNat ∧ c.toNat ≤ 13) ∨ (28 ≤ c.toNat ∧ c.toNat ≤ 32)
    ∨ c.toNat = 133 ∨ c.toNat = 160 ∨ c.toNat = 5760
    ∨ (8192 ≤ c.toNat ∧ c.toNat ≤ 8202) ∨ c.toNat = 8232 ∨ c.toNat = 8233
    ∨ c.toNat = 8239 ∨ c.toNat = 8287 ∨ c.toNat = 12288)

/-- Python str.split() with no separator: split on runs of whitespace,
discarding empty pieces. acc holds the characters of the token being
read, in reverse. -/
def pySplitAux (acc : List Char) : List Char → List (List Char)
  | [] => if acc.isEmpty then [] else [acc.reverse]
  | c :: cs =>
    if pyIsSpace c then
      if acc.isEmpty then pySplitAux [] cs else acc.reverse :: pySplitAux [] cs
    else pySplitAux (c :: acc) cs

/-- Python str.split() with no separator. -/
def pySplit (l : List Char) : List (List Char) := pySplitAux [] l

/-- Python str.strip(): remove leading and trailing whitespace. -/
def pyStrip (l : List Char) : List Char :=
  ((l.dropWhile pyIsSpace).reverse.dropWhile pyIsSpace).reverse

/-- Python str.split(":") as used on each key:value token: split on
every colon, keeping empty pieces. -/
def splitColon : List Char → List (List Char)
  | [] => [[]]
  | c :: cs =>
    if c = ':' then [] :: splitColon cs
    else
      match splitColon cs with
      | [] => [[c]]
      | t :: ts => (c :: t) :: ts

/-- A parameter value of a spec string: a Python integer (int(v, 16)
when the token value begins with 0x), the literal string otherwise
(algosplit line 291). -/
inductive AlgoValue where
  | int : Int → AlgoValue
  | str : List Char → AlgoValue
deriving DecidableEq

/-- The numeric value of one hex digit character (0-9, a-f, A-F). -/
def hexDigitVal (c : Char) : Option Nat :=
  if 48 ≤ c.toNat ∧ c.toNat ≤ 57 then some (c.toNat - 48)
  else if 97 ≤ c.toNat ∧ c.toNat ≤ 102 then some (c.toNat - 87)
  else if 65 ≤ c.toNat ∧ c.toNat ≤ 70 then some (c.toNat - 55)
  else none

/-- Left-to-right accumulation of hex digits. -/
def parseHexDigits : Nat → List Char → Option Nat
  | acc, [] => some acc
  | acc, c :: cs =>
    match hexDigitVal c with
    | none => none
    | some d => parseHexDigits (acc * 16 + d) cs

/-- int(v, 16) for a value token beginning with 0x: the hex digits after
the prefix (none models the ValueError on an empty or malformed digit
string; Python additionally tolerates single underscores between digits,
which mkhex never emits and no theorem below exercises). -/
def parseHex0x : List Char → Option Nat
  | '0' :: 'x' :: rest => if rest = [] then none else parseHexDigits 0 rest
  | _ => none

/-- v.startswith(0x-prefix). -/
def startsWith0x : List Char → Bool
  | '0' :: 'x' :: _ => true
  | _ => false

/-- Parse one key:value token of algosplit: split on colons, require
exactly two pieces (the tuple unpacking k, v raises ValueError
otherwise), parse the value as hex when it begins with 0x. -/
def parseAlgoToken (t : List Char) : Option (List Char × AlgoValue) :=
  match splitColon t with
  | [k, v] =>
    if startsWith0x v then
      (parseHex0x v).map (fun n => (k, AlgoValue.int (Int.ofNat n)))
    else some (k, AlgoValue.str v)
  | _ => none

/-- Python dict insertion: an existing key keeps its position and gets
the new value, a new key is appended. -/
def dictInsert (m : List (List Char × AlgoValue)) (k : List Char)
    (v : AlgoValue) : List (List Char × AlgoValue) :=
  if m.any (fun kv => kv.1 == k) then
    m.map (fun kv => if kv.1 == k then (k, v) else kv)
  else m ++ [(k, v)]

/-- The dict comprehension of algosplit: later pairs win on duplicate
keys; a Python dict compares order-insensitively, so the association
list in insertion order represents it. -/
def dictOfPairs (ps : List (List Char × AlgoValue)) :
    List (List Char × AlgoValue) :=
  ps.foldl (fun m kv => dictInsert m kv.1 kv.2) []

/-- algosplit (spraydry.py lines 288..297): strip and split the string,
take the first token as the algorithm name (IndexError, modelled none,
when there is none), parse the remaining tokens as key:value pairs into
a dict. -/
def algosplit (instr : List Char) :
    Option (List Char × List (List Char × AlgoValue)) :=
  match pySplit (pyStrip instr) with
  | [] => none
  | name :: rest =>
    (rest.mapM parseAlgoToken).map (fun ps => (name, dictOfPairs ps))

/-- ASCII code of the lowercase hex digit character for d < 16, as a
character. -/
def hexDigitChar (d : Nat) : Char := Char.ofNat (hexDigitCode d)

/-- The hex digits of n, most significant first, empty for 0 (the
recursion underlying Python hex()), with structural fuel: any fuel of at
least n steps computes the digits, since n / 16 decreases. -/
def toHexDigitsAux : Nat → Nat → List Char
  | _, 0 => []
  | 0, _ + 1 => []
  | fuel + 1, n + 1 => toHexDigitsAux fuel ((n + 1) / 16) ++ [hexDigitChar ((n + 1) % 16)]

/-- The hex digits of n, most significant first, empty for 0. -/
def toHexDigits (n : Nat) : List Char := toHexDigitsAux n n

/-- Python hex(n) for n a natural number: 0x then lowercase digits with
no leading zero except for hex(0) = 0x0. -/
def pyHex (n : Nat) : List Char :=
  '0' :: 'x' :: (if n = 0 then ['0'] else toHexDigits n)

/-- Python hex(n) for an arbitrary integer: a minus sign before the
0x-form of the absolute value when n is negative. -/
def pyHexInt (n : Int) : List Char :=
  if n < 0 then '-' :: pyHex n.natAbs else pyHex n.toNat

/-- mkhex (spraydry.py lines 308..314): non-integers via str() (the
identity on strings), integers via hex() padded by inserting one 0
after the first two characters when the total length is odd (for a
negative integer of odd length this splices the 0 before the x,
producing a string such as -00x1f that algosplit cannot re-read). -/
def mkhex : AlgoValue → List Char
  | AlgoValue.str s => s
  | AlgoValue.int n =>
    let res := pyHexInt n
    if res.length % 2 = 1 then res.take 2 ++ '0' :: res.drop 2 else res

/-- Byte-lexicographic comparison of keys, as characters. -/
def lexLeChar : List Char → List Char → Bool
  | [], _ => true
  | _ :: _, [] => false
  | a :: as, b :: bs => if a < b then true else if b < a then false else lexLeChar as bs

/-- Python string join with a single space separator. -/
def intercalateSpace : List (List Char) → List Char
  | [] => []
  | [t] => t
  | t :: ts => t ++ ' ' :: intercalateSpace ts

/-- algojoin (spraydry.py lines 299..306): the name followed by
key:mkhex(value) tokens for the items sorted by key, joined with single
spaces. -/
def algojoin (algo : List Char × List (List Char × AlgoValue)) : List Char :=
  intercalateSpace (algo.1 ::
    (sortLe (fun x y : List Char × AlgoValue => lexLeChar x.1 y.1) algo.2).map
      (fun kv => kv.1 ++ ':' :: mkhex kv.2))

/-- Strict byte-lexicographic order on keys. -/
def lexLtChar (a b : List Char) : Bool := lexLeChar a b && !lexLeChar b a

/-- The keys of an association list are strictly increasing (the
canonical representation of a Python dict with sorted keys). -/
def keysStrictSorted : List (List Char × AlgoValue) → Bool
  | [] => true
  | kv :: rest => rest.all (fun kv2 => lexLtChar kv.1 kv2.1) && keysStrictSorted rest

/-- A usable algorithm name: nonempty and whitespace-free. -/
def goodName (s : List Char) : Bool := !s.isEmpty && s.all (fun c => !pyIsSpace c)

/-- A usable parameter key: whitespace- and colon-free. -/
def goodKey (s : List Char) : Bool := s.all (fun c => !pyIsSpace c && c != ':')

/-- A usable parameter value: a nonnegative integer (negative integers
are emitted by mkhex as -0x... forms that algosplit reads back as
strings), or a string that is whitespace- and colon-free and does not
begin with 0x. -/
def goodValue : AlgoValue → Bool
  | AlgoValue.int n => decide (0 ≤ n)
  | AlgoValue.str s => s.all (fun c => !pyIsSpace c && c != ':') && !startsWith0x s

/-- A pair (name, params) on which the algojoin / algosplit round trip
can hold: good name, good keys and values, strictly sorted keys. -/
def goodAlgoPair (a : List Char × List (List Char × AlgoValue)) : Bool :=
  goodName a.1 && a.2.all (fun kv => goodKey kv.1 && goodValue kv.2)
    && keysStrictSorted a.2

/- ==================================================================
Theorems.
================================================================== -/

theorem store_chunk_files (cfg : SDSConfig) (st : Store) (chunk : List Nat) :
    (store_chunk cfg st chunk).1.files = st.files := by
  cases h : st.chunkhashes.find?
      (fun c => c.rehydrate == cfg.rehydrate && c.data == cfg.hash chunk) with
  | none => simp only [store_chunk, h]
  | some row => simp only [store_chunk, h]

theorem store_content_files (cfg : SDSConfig) (st : Store) (fileid offset chunkid : Nat) :
    (store_content cfg st fileid offset chunkid).files = st.files := by
  cases h : st.chunkhashes.find? (fun c => c.id == chunkid) with
  | none => simp only [store_content, h]
  | some ch =>
    simp only [store_content, h]
    split <;> rfl

theorem dry_file_fold_files (cfg : SDSConfig) (fileid : Nat) :
    ∀ (chunks : List (Nat × List Nat)) (st : Store),
      (chunks.foldl (fun s oc =>
        let sc := store_chunk cfg s oc.2
        store_content cfg sc.1 fileid oc.1 sc.2) st).files = st.files := by
  intro chunks
  induction chunks with
  | nil => intro st; rfl
  | cons oc rest ih =>
    intro st
    simp only [List.foldl_cons]
    rw [ih]
    rw [store_content_files, store_chunk_files]

theorem mem_le_foldr_max : ∀ (l : List Nat) (x : Nat), x ∈ l → x ≤ l.foldr max 0 := by
  intro l
  induction l with
  | nil => intro x hx; exact absurd hx (List.not_mem_nil x)
  | cons a as ih =>
    intro x hx
    rcases List.mem_cons.mp hx with he | hm
    · subst he
      exact Nat.le_max_left _ _
    · exact Nat.le_trans (ih x hm) (Nat.le_max_right _ _)

theorem nextRowId_not_mem_files (files : List FileRow) :
    ∀ f ∈ files, f.id ≠ nextRowId (files.map FileRow.id) := by
  intro f hf
  have h1 : f.id ≤ (files.map FileRow.id).foldr max 0 :=
    mem_le_foldr_max _ _ (List.mem_map_of_mem FileRow.id hf)
  unfold nextRowId
  omega

theorem tmpid_inv (cfg : SDSConfig) (st : Store) (path : List Nat) (st1 : Store)
    (fid : Nat) (h : tmpid cfg st path = some (st1, fid)) :
    fid = nextRowId (st.files.map FileRow.id)
    ∧ st1.files = st.files ++ [⟨fid, cfg.fakehash path, cfg.rehydrate⟩] := by
  simp only [tmpid] at h
  split at h
  · exact Option.noConfusion h
  · injection h with h2
    injection h2 with h3 h4
    subst h4
    exact ⟨rfl, by rw [← h3]⟩

theorem files_map_upd (files ext : List FileRow) (fileid : Nat) (filehash : List Nat)
    (hids : ∀ f ∈ files, f.id ≠ fileid) :
    (files ++ ext).map
        (fun f => if f.id == fileid then { f with hash := filehash } else f)
      = files ++ ext.map
        (fun f => if f.id == fileid then { f with hash := filehash } else f) := by
  rw [List.map_append]
  have h1 : files.map (fun f => if f.id == fileid then { f with hash := filehash } else f)
      = files.map id := by
    apply List.map_congr_left
    intro f hf
    have hne : (f.id == fileid) = false := by
      simp only [beq_eq_false_iff_ne, ne_eq]
      exact hids f hf
    simp only [hne, Bool.false_eq_true, if_false, id]
  rw [h1, List.map_id]

theorem store_entry_files (st : Store) (d : Nat) (nm : List Nat) (i : Bool)
    (md : List Nat) (sz : Nat) (f : Nat) :
    (store_entry st d nm i md sz f).files = st.files := by
  unfold store_entry
  split <;> rfl

theorem dry_file_files_prefix (cfg : SDSConfig) (st : Store) (path : List Nat)
    (chunks : List (Nat × List Nat)) (res : Store × Nat × List Nat)
    (h : dry_file cfg st path chunks = some res) :
    ∃ ext, res.1.files = st.files ++ ext := by
  simp only [dry_file] at h
  split at h
  · exact Option.noConfusion h
  · rename_i st1 fileid htm
    obtain ⟨hfid, hst1⟩ := tmpid_inv cfg st path st1 fileid htm
    subst hfid
    split at h
    · rename_i existing hfind
      have hres := Option.some.inj h
      exact ⟨[], by rw [← hres]; simp⟩
    · rename_i hfind
      have hres := Option.some.inj h
      have hfold : (chunks.foldl (fun s oc =>
          let sc := store_chunk cfg s oc.2
          store_content cfg sc.1 (nextRowId (st.files.map FileRow.id)) oc.1 sc.2) st1).files
          = st1.files :=
        dry_file_fold_files cfg (nextRowId (st.files.map FileRow.id)) chunks st1
      refine ⟨[⟨nextRowId (st.files.map FileRow.id),
          cfg.hash ((chunks.map Prod.snd).flatten), cfg.rehydrate⟩], ?_⟩
      rw [← hres]
      show (chunks.foldl (fun s oc =>
          let sc := store_chunk cfg s oc.2
          store_content cfg sc.1 (nextRowId (st.files.map FileRow.id)) oc.1 sc.2) st1).files.map
            (fun f => if f.id == nextRowId (st.files.map FileRow.id)
              then { f with hash := cfg.hash ((chunks.map Prod.snd).flatten) } else f)
        = st.files ++ [⟨nextRowId (st.files.map FileRow.id),
            cfg.hash ((chunks.map Prod.snd).flatten), cfg.rehydrate⟩]
      rw [hfold, hst1]
      rw [files_map_upd st.files [⟨nextRowId (st.files.map FileRow.id),
          cfg.fakehash path, cfg.rehydrate⟩]
          (nextRowId (st.files.map FileRow.id))
          (cfg.hash ((chunks.map Prod.snd).flatten))
          (nextRowId_not_mem_files st.files)]
      simp

theorem dry_files_prefix_all :
    ∀ n : Nat,
      (∀ t : FSTree, sizeOf t ≤ n →
        ∀ (cfg : SDSConfig) (st : Store) (path : List Nat) (res : Store × Nat × List Nat),
          dry cfg st path t = some res → ∃ ext, res.1.files = st.files ++ ext)
      ∧ (∀ cl : List (List Nat × FSTree), sizeOf cl ≤ n →
          ∀ (cfg : SDSConfig) (fid : Nat) (path : List Nat) (st : Store)
            (res : Store × List Nat),
          dry_children cfg fid path st cl = some res →
            ∃ ext, res.1.files = st.files ++ ext) := by
  intro n
  induction n using Nat.strong_induction_on with
  | _ n ih =>
    constructor
    · intro t ht cfg st path res hdry
      cases t with
      | file m s chunks =>
        simp only [dry] at hdry
        exact dry_file_files_prefix cfg st path chunks res hdry
      | dir m s children =>
        have hlt : sizeOf children < n := by
          have hs : sizeOf (FSTree.dir m s children) = 1 + sizeOf m + sizeOf s + sizeOf children := by
            simp
          omega
        simp only [dry] at hdry
        split at hdry
        · exact Option.noConfusion hdry
        · rename_i st1 fileid htm
          obtain ⟨hfid, hst1⟩ := tmpid_inv cfg st path st1 fileid htm
          subst hfid
          split at hdry
          · exact Option.noConfusion hdry
          · rename_i st2 segs hdc2
            obtain ⟨e, he⟩ := (ih (sizeOf children) hlt).2 children (Nat.le_refl _)
              cfg (nextRowId (st.files.map FileRow.id)) path st1 (st2, segs) hdc2
            split at hdry
            · rename_i existing hfind
              have hres := Option.some.inj hdry
              exact ⟨[], by rw [← hres]; simp⟩
            · rename_i hfind
              have hres := Option.some.inj hdry
              refine ⟨⟨nextRowId (st.files.map FileRow.id), cfg.hash segs, cfg.rehydrate⟩
                :: e.map (fun f => if f.id == nextRowId (st.files.map FileRow.id)
                  then { f with hash := cfg.hash segs } else f), ?_⟩
              rw [← hres]
              show st2.files.map (fun f => if f.id == nextRowId (st.files.map FileRow.id)
                  then { f with hash := cfg.hash segs } else f)
                = st.files ++ (⟨nextRowId (st.files.map FileRow.id), cfg.hash segs, cfg.rehydrate⟩
                  :: e.map (fun f => if f.id == nextRowId (st.files.map FileRow.id)
                    then { f with hash := cfg.hash segs } else f))
              have hst2f : st2.files = st.files
                  ++ (⟨nextRowId (st.files.map FileRow.id), cfg.fakehash path, cfg.rehydrate⟩ :: e) := by
                rw [he, hst1]
                simp
              rw [hst2f]
              rw [files_map_upd st.files
                  (⟨nextRowId (st.files.map FileRow.id), cfg.fakehash path, cfg.rehydrate⟩ :: e)
                  (nextRowId (st.files.map FileRow.id)) (cfg.hash segs)
                  (nextRowId_not_mem_files st.files)]
              simp
    · intro cl hcl cfg fid path st res hdc
      cases cl with
      | nil =>
        simp only [dry_children] at hdc
        have hres := Option.some.inj hdc
        exact ⟨[], by rw [← hres]; simp⟩
      | cons c rest =>
        obtain ⟨name, sub⟩ := c
        have hlt1 : sizeOf sub < n := by
          have hs : sizeOf ((name, sub) :: rest)
              = 1 + (1 + sizeOf name + sizeOf sub) + sizeOf rest := by
            simp
          omega
        have hlt2 : sizeOf rest < n := by
          have hs : sizeOf ((name, sub) :: rest)
              = 1 + (1 + sizeOf name + sizeOf sub) + sizeOf rest := by
            simp
          omega
        simp only [dry_children] at hdc
        split at hdc
        · exact Option.noConfusion hdc
        · rename_i st1 childid childhash hd1
          split at hdc
          · exact Option.noConfusion hdc
          · rename_i st3 segs hd2
            have hres := Option.some.inj hdc
            obtain ⟨e1, he1⟩ := (ih (sizeOf sub) hlt1).1 sub (Nat.le_refl _)
              cfg st (path ++ [47] ++ name) (st1, childid, childhash) hd1
            obtain ⟨e2, he2⟩ := (ih (sizeOf rest) hlt2).2 rest (Nat.le_refl _)
              cfg fid path
              (store_entry st1 fid name sub.isdir (make_modebytes sub.mode) sub.size childid)
              (st3, segs) hd2
            refine ⟨e1 ++ e2, ?_⟩
            rw [← hres]
            show st3.files = st.files ++ (e1 ++ e2)
            rw [he2, store_entry_files, he1, List.append_assoc]

theorem dry_children_files_prefix (cfg : SDSConfig) (fid : Nat) (path : List Nat)
    (st : Store) (cl : List (List Nat × FSTree)) (st2 : Store) (segs : List Nat)
    (h : dry_children cfg fid path st cl = some (st2, segs)) :
    ∃ ext, st2.files = st.files ++ ext := by
  obtain ⟨ext, he⟩ := (dry_files_prefix_all (sizeOf cl)).2 cl (Nat.le_refl _)
    cfg fid path st (st2, segs) h
  exact ⟨ext, he⟩

/-- Helper for the file half of the duplicate-rollback claim: for every
path whose final hash already exists as a file row with the same
rehydrate id (and whose preliminary fake-hash insert succeeds), dry_file
rolls back its savepoint, leaving the store exactly in the state it had
before the call with the preliminary file row and all rows inserted
under the savepoint discarded, and returns the pre-existing file id; the
duplicate-file condition is recovered locally and never propagates (the
result is some, not an error). -/
theorem dry_file_duplicate_rollback (cfg : SDSConfig) (st : Store)
    (path : List Nat) (chunks : List (Nat × List Nat)) (existing : FileRow)
    (hfind : st.files.find? (fun f =>
        f.hash == cfg.hash ((chunks.map Prod.snd).flatten)
          && f.rehydrate == cfg.rehydrate) = some existing)
    (hfake : ∀ f ∈ st.files,
        ¬ (f.hash = cfg.fakehash path ∧ f.rehydrate = cfg.rehydrate)) :
    dry_file cfg st path chunks
      = some (st, existing.id, cfg.hash ((chunks.map Prod.snd).flatten)) := by
  have hany : (st.files.any fun f =>
      f.hash == cfg.fakehash path && f.rehydrate == cfg.rehydrate) = false := by
    rw [List.any_eq_false]
    intro f hf
    simp only [Bool.and_eq_true, beq_iff_eq]
    exact hfake f hf
  simp only [dry_file, tmpid, hany, Bool.false_eq_true, if_false]
  rw [dry_file_fold_files]
  have happ : ((st.files ++
      [(⟨nextRowId (st.files.map FileRow.id), cfg.fakehash path, cfg.rehydrate⟩ : FileRow)]).find?
        (fun f => f.hash == cfg.hash ((chunks.map Prod.snd).flatten)
          && f.rehydrate == cfg.rehydrate)) = some existing := by
    rw [List.find?_append, hfind]
    rfl
  rw [happ]

/-- Witness for dry_file_duplicate_rollback at a concrete store holding a
file row whose hash is the final hash of the single-chunk content. -/
theorem dry_file_duplicate_rollback_witness :
    dry_file ⟨[104], fun l => l, 1, fun l => l⟩
        ⟨[⟨3, [104, 45, 7], 1⟩], [], [], [], []⟩ [9] [(0, [7])]
      = some (⟨[⟨3, [104, 45, 7], 1⟩], [], [], [], []⟩, 3, [104, 45, 7]) :=
  dry_file_duplicate_rollback (⟨[104], fun l => l, 1, fun l => l⟩ : SDSConfig)
    (⟨[⟨3, [104, 45, 7], 1⟩], [], [], [], []⟩ : Store) [9] [(0, [7])]
    (⟨3, [104, 45, 7], 1⟩ : FileRow) (by decide) (by decide)

/-- C5: a duplicate file or directory, i.e. a path whose final hash
already exists as a file row under the same rehydrate id, is recovered
locally in both ingestion paths and never propagates an error. File
half: when st already holds a file row whose hash is the final content
hash and the preliminary fake-hash insert succeeds, dry_file rolls its
savepoint back, returning exactly the entry store st (discarding the
preliminary file row and every chunkhash, chunk and content row
inserted under the savepoint) together with the existing row id and the
final hash. Directory half: when the preliminary fake-hash insert
succeeds, the child loop from the post-insert state succeeds with
running-hash input segs, and st already holds a file row with
(hash segs, rehydrate), dry_directory likewise rolls its savepoint
back, returning exactly the entry store st - so the preliminary file
row, every row inserted by the recursive child ingestions and every
Entry row inserted by the loop are all discarded - together with the
existing row id and the final directory hash. -/
theorem dry_duplicate_rollback :
    (∀ (cfg : SDSConfig) (st : Store) (path : List Nat)
        (chunks : List (Nat × List Nat)) (existing : FileRow),
      st.files.find? (fun f => f.hash == cfg.hash ((chunks.map Prod.snd).flatten)
          && f.rehydrate == cfg.rehydrate) = some existing →
      (∀ f ∈ st.files, ¬ (f.hash = cfg.fakehash path ∧ f.rehydrate = cfg.rehydrate)) →
      dry_file cfg st path chunks
        = some (st, existing.id, cfg.hash ((chunks.map Prod.snd).flatten)))
    ∧ (∀ (cfg : SDSConfig) (st : Store) (path : List Nat)
        (children : List (List Nat × FSTree)) (existing : FileRow)
        (st2 : Store) (segs : List Nat),
      dry_children cfg (nextRowId (st.files.map FileRow.id)) path
          { st with files := st.files ++ [⟨nextRowId (st.files.map FileRow.id),
              cfg.fakehash path, cfg.rehydrate⟩] } children = some (st2, segs) →
      st.files.find? (fun f => f.hash == cfg.hash segs
          && f.rehydrate == cfg.rehydrate) = some existing →
      (∀ f ∈ st.files, ¬ (f.hash = cfg.fakehash path ∧ f.rehydrate = cfg.rehydrate)) →
      dry_directory cfg st path children = some (st, existing.id, cfg.hash segs)) := by
  constructor
  · intro cfg st path chunks existing hfind hfake
    exact dry_file_duplicate_rollback cfg st path chunks existing hfind hfake
  · intro cfg st path children existing st2 segs hchild hfind hfake
    have hany : (st.files.any fun f =>
        f.hash == cfg.fakehash path && f.rehydrate == cfg.rehydrate) = false := by
      rw [List.any_eq_false]
      intro f hf
      simp only [Bool.and_eq_true, beq_iff_eq]
      exact hfake f hf
    have htm : tmpid cfg st path
        = some ({ st with files := st.files ++ [⟨nextRowId (st.files.map FileRow.id),
            cfg.fakehash path, cfg.rehydrate⟩] }, nextRowId (st.files.map FileRow.id)) := by
      simp only [tmpid, hany, Bool.false_eq_true, if_false]
    obtain ⟨ext, hext⟩ := dry_children_files_prefix cfg
      (nextRowId (st.files.map FileRow.id)) path
      { st with files := st.files ++ [⟨nextRowId (st.files.map FileRow.id),
          cfg.fakehash path, cfg.rehydrate⟩] } children st2 segs hchild
    have hfind2 : st2.files.find? (fun f => f.hash == cfg.hash segs
        && f.rehydrate == cfg.rehydrate) = some existing := by
      rw [hext]
      show ((st.files ++ [(⟨nextRowId (st.files.map FileRow.id),
          cfg.fakehash path, cfg.rehydrate⟩ : FileRow)]) ++ ext).find?
          (fun f => f.hash == cfg.hash segs && f.rehydrate == cfg.rehydrate)
        = some existing
      rw [List.append_assoc, List.find?_append, hfind]
      rfl
    unfold dry_directory
    simp only [dry]
    split
    · rename_i hnone
      rw [htm] at hnone
      exact Option.noConfusion hnone
    · rename_i st1 fileid htm2
      rw [htm] at htm2
      injection htm2 with hpair
      injection hpair with h1 h2
      subst h2
      subst h1
      split
      · rename_i hnone2
        rw [hchild] at hnone2
        exact Option.noConfusion hnone2
      · rename_i st2b segsb hchild2
        rw [hchild] at hchild2
        injection hchild2 with hpair2
        injection hpair2 with h3 h4
        subst h3
        subst h4
        split
        · rename_i ex2 hfind3
          rw [hfind2] at hfind3
          injection hfind3 with hex
          subst hex
          rfl
        · rename_i hfind3
          rw [hfind2] at hfind3
          exact Option.noConfusion hfind3

/-- Witness for dry_duplicate_rollback: the file half at a store holding
a file row whose hash is the final hash of single-chunk content, and the
directory half at a store holding a file row whose hash is the hash of
the empty directory. -/
theorem dry_duplicate_rollback_witness :
    dry_file ⟨[104], fun l => l, 1, fun l => l⟩
        ⟨[⟨3, [104, 45, 7], 1⟩], [], [], [], []⟩ [9] [(0, [7])]
      = some (⟨[⟨3, [104, 45, 7], 1⟩], [], [], [], []⟩, 3, [104, 45, 7])
    ∧ dry_directory ⟨[104], fun l => l, 1, fun l => l⟩
        ⟨[⟨3, [104, 45], 1⟩], [], [], [], []⟩ [9] []
      = some (⟨[⟨3, [104, 45], 1⟩], [], [], [], []⟩, 3, [104, 45]) :=
  ⟨dry_duplicate_rollback.1 ⟨[104], fun l => l, 1, fun l => l⟩
      ⟨[⟨3, [104, 45, 7], 1⟩], [], [], [], []⟩ [9] [(0, [7])] ⟨3, [104, 45, 7], 1⟩
      (by decide) (by decide),
   dry_duplicate_rollback.2 ⟨[104], fun l => l, 1, fun l => l⟩
      ⟨[⟨3, [104, 45], 1⟩], [], [], [], []⟩ [9] [] ⟨3, [104, 45], 1⟩
      ⟨[⟨3, [104, 45], 1⟩, ⟨4, [104, 95, 9], 1⟩], [], [], [], []⟩ []
      (by simp only [dry_children]; decide) (by decide) (by decide)⟩

/-- C6: store_chunk is idempotent per rehydrate configuration. A second
call with byte-equal chunk content under the same rehydrate id returns
the same ChunkHash id and leaves the store untouched; the first call
inserts the encoded chunk body exactly when no matching ChunkHash row
existed (so the body is inserted exactly once, on the first call), and a
call that finds an existing ChunkHash row returns its id without
inserting or modifying anything. -/
theorem store_chunk_idempotent (cfg : SDSConfig) (st : Store) (chunk : List Nat) :
    store_chunk cfg (store_chunk cfg st chunk).1 chunk = store_chunk cfg st chunk
    ∧ (store_chunk cfg st chunk).1
        = (if (st.chunkhashes.find? (fun c =>
              c.rehydrate == cfg.rehydrate && c.data == cfg.hash chunk)).isSome
           then st
           else { st with
              chunkhashes := st.chunkhashes ++
                [⟨nextRowId (st.chunkhashes.map ChunkHashRow.id), cfg.rehydrate,
                  chunk.length, cfg.hash chunk⟩],
              chunks := st.chunks ++
                [⟨nextRowId (st.chunkhashes.map ChunkHashRow.id), cfg.dryer chunk⟩] })
    ∧ (store_chunk cfg st chunk).2
        = ((st.chunkhashes.find? (fun c =>
              c.rehydrate == cfg.rehydrate && c.data == cfg.hash chunk)).map
            ChunkHashRow.id).getD (nextRowId (st.chunkhashes.map ChunkHashRow.id)) := by
  cases h : st.chunkhashes.find?
      (fun c => c.rehydrate == cfg.rehydrate && c.data == cfg.hash chunk) with
  | some row =>
    refine ⟨?_, ?_, ?_⟩
    · simp only [store_chunk, h]
    · simp [store_chunk, h]
    · simp [store_chunk, h]
  | none =>
    have hsecond : ((st.chunkhashes ++
        [(⟨nextRowId (st.chunkhashes.map ChunkHashRow.id), cfg.rehydrate,
          chunk.length, cfg.hash chunk⟩ : ChunkHashRow)]).find?
          (fun c => c.rehydrate == cfg.rehydrate && c.data == cfg.hash chunk))
        = some (⟨nextRowId (st.chunkhashes.map ChunkHashRow.id), cfg.rehydrate,
            chunk.length, cfg.hash chunk⟩ : ChunkHashRow) := by
      rw [List.find?_append, h]
      simp [List.find?_cons]
    refine ⟨?_, ?_, ?_⟩
    · simp only [store_chunk, h]
      simp only [store_chunk, hsecond]
    · simp [store_chunk, h]
    · simp [store_chunk, h]

/-- C7 (code bug): Rehydrator defines no method named pread_entry, yet
SprayDryFS.read invokes self._rehydrator.pread_entry for every file
handle other than the root inode, so such a read raises AttributeError
instead of returning pread(attributes(fh - offset).file, off, size);
only the root-inode branch reaches pread. Evaluated here at the failing
input fh = 2, off = 0, size = 4096. -/
theorem read_nonroot_attribute_error :
    ¬ (("pread_entry" : String) ∈ rehydratorMethodNames)
    ∧ sprayDryFS_read (fun _ _ _ => []) 5 2 0 4096
        = Except.error (PyErr.attributeError ("pread_entry"))
    ∧ sprayDryFS_read (fun f o s => [f, o, s]) 5 ROOT_INODE 0 4096
        = Except.ok [5, 0, 4096] :=
  ⟨by decide, rfl, rfl⟩

/-- C8: the nocompress codec. encode is the identity on all inputs;
decode returns the payload unchanged when its length equals the recorded
size and raises the integrity error whenever the lengths differ; in
particular decode inverts encode at the correct recorded size. -/
theorem nocompress_codec_spec (s : Nat) (d : List Nat) :
    nocompress_encode d = d
    ∧ (d.length = s → nocompress_rehydrator s d = Except.ok d)
    ∧ (¬ d.length = s →
        nocompress_rehydrator s d = Except.error (RehydrateError.badChunkSize s d))
    ∧ nocompress_rehydrator (nocompress_encode d).length (nocompress_encode d)
        = Except.ok d := by
  refine ⟨rfl, ?_, ?_, ?_⟩
  · intro h
    subst h
    simp [nocompress_rehydrator]
  · intro h
    rw [nocompress_rehydrator, if_pos]
    exact fun hh => h hh.symm
  · simp [nocompress_rehydrator, nocompress_encode]

/-- Witness for nocompress_codec_spec: both the matching-length and the
mismatched-length hypotheses discharged at concrete inputs. -/
theorem nocompress_codec_spec_witness :
    nocompress_rehydrator 3 [1, 2, 3] = Except.ok [1, 2, 3]
    ∧ nocompress_rehydrator 2 [1, 2, 3]
        = Except.error (RehydrateError.badChunkSize 2 [1, 2, 3]) :=
  ⟨(nocompress_codec_spec 3 [1, 2, 3]).2.1 (by decide),
   (nocompress_codec_spec 2 [1, 2, 3]).2.2.1 (by decide)⟩

theorem entrysegment_eq_childKeySegment (c : DirChild) :
    entrysegment c = childKeySegment (childKey c) := rfl

/-- C4: the directory hash is the configured digest over the
concatenation, in sorted child order, of the per-child segments
0x00 || childhash || modebytes || hex(name) (this is the definition
dry_directory_hash, read off the source), and it is a pure function of
the sorted child names, child hashes and child mode bits: two child
lists whose sorted (name, hash, mode) projections agree hash
identically, whatever their sizes, isdirectory flags or child row ids. -/
theorem dry_directory_hash_pure_in_sorted_keys (hashname : List Nat)
    (digestF : List Nat → List Nat) (c1 c2 : List DirChild)
    (h : (sortChildren c1).map childKey = (sortChildren c2).map childKey) :
    dry_directory_hash hashname digestF c1 = dry_directory_hash hashname digestF c2 := by
  unfold dry_directory_hash
  have h1 : (sortChildren c1).map entrysegment = (sortChildren c2).map entrysegment := by
    have e1 : (sortChildren c1).map entrysegment
        = ((sortChildren c1).map childKey).map childKeySegment := by
      rw [List.map_map]; rfl
    have e2 : (sortChildren c2).map entrysegment
        = ((sortChildren c2).map childKey).map childKeySegment := by
      rw [List.map_map]; rfl
    rw [e1, e2, h]
  rw [h1]

/-- Witness for dry_directory_hash_pure_in_sorted_keys: two child lists
differing in size, isdirectory flag and child id (and in input order)
but with equal sorted (name, hash, mode) projections hash identically. -/
theorem dry_directory_hash_pure_witness :
    dry_directory_hash [104] (fun l => l)
        [⟨[121], [104, 45, 2], 33188, 10, false, 4⟩,
         ⟨[120], [104, 45, 1], 16877, 5, true, 3⟩]
      = dry_directory_hash [104] (fun l => l)
        [⟨[120], [104, 45, 1], 16877, 4096, false, 99⟩,
         ⟨[121], [104, 45, 2], 33188, 0, true, 100⟩] :=
  dry_directory_hash_pure_in_sorted_keys [104] (fun l => l)
    [⟨[121], [104, 45, 2], 33188, 10, false, 4⟩,
     ⟨[120], [104, 45, 1], 16877, 5, true, 3⟩]
    [⟨[120], [104, 45, 1], 16877, 4096, false, 99⟩,
     ⟨[121], [104, 45, 2], 33188, 0, true, 100⟩] (by decide)

theorem rangeStep_stop_le (start stop step : Nat) (h : stop ≤ start) :
    rangeStep start stop step = [] := by
  unfold rangeStep
  have h0 : stop - start = 0 := by omega
  rw [h0]
  rcases Nat.eq_zero_or_pos step with hs | hs
  · subst hs; rfl
  · rw [Nat.div_eq_of_lt (by omega)]
    rfl

theorem rangeStep_cons (start stop step : Nat) (hstep : 0 < step)
    (h : start < stop) :
    rangeStep start stop step = start :: rangeStep (start + step) stop step := by
  unfold rangeStep
  have h1 : stop - start + step - 1 = (stop - start - 1) + step := by omega
  rw [h1, Nat.add_div_right _ hstep, List.range'_succ]
  have h2 : (stop - start - 1) / step = (stop - (start + step) + step - 1) / step := by
    rcases Nat.le_total (start + step) stop with hc | hc
    · have : stop - (start + step) + step - 1 = stop - start - 1 := by omega
      rw [this]
    · have e1 : stop - (start + step) = 0 := by omega
      have e2 : stop - start - 1 < step := by omega
      rw [e1, Nat.div_eq_of_lt e2, Nat.div_eq_of_lt (by omega)]
  rw [h2]

theorem rangeStep_mem (step : Nat) (hstep : 0 < step) :
    ∀ n start stop, stop - start = n → ∀ x ∈ rangeStep start stop step,
      start ≤ x ∧ x < stop := by
  intro n
  induction n using Nat.strong_induction_on with
  | _ n ih =>
    intro start stop hn x hx
    rcases Nat.lt_or_ge start stop with hlt | hge
    · rw [rangeStep_cons start stop step hstep hlt] at hx
      rcases List.mem_cons.mp hx with he | ht
      · subst he; exact ⟨Nat.le_refl x, hlt⟩
      · have := ih (stop - (start + step)) (by omega) (start + step) stop rfl x ht
        exact ⟨by omega, this.2⟩
    · rw [rangeStep_stop_le start stop step hge] at hx
      cases hx

theorem sliceChunks_cover (l : List Nat) (step : Nat) (hstep : 0 < step) :
    ∀ n start stop, stop - start = n → stop ≤ l.length →
      contiguousFrom start (sliceChunks l start stop step)
      ∧ ((sliceChunks l start stop step).map Prod.snd).flatten
          = (l.drop start).take (stop - start)
      ∧ List.Chain' (fun a b : Nat × List Nat => a.1 < b.1)
          (sliceChunks l start stop step)
      ∧ ∀ p ∈ sliceChunks l start stop step,
          start ≤ p.1 ∧ p.1 < stop ∧ p.2.length ≤ step ∧ p.2 ≠ [] := by
  intro n
  induction n using Nat.strong_induction_on with
  | _ n ih =>
    intro start stop hn hstop
    rcases Nat.lt_or_ge start stop with hlt | hge
    · have hcons : sliceChunks l start stop step
          = (start, (l.drop start).take (min stop (start + step) - start))
            :: sliceChunks l (start + step) stop step := by
        unfold sliceChunks
        rw [rangeStep_cons start stop step hstep hlt, List.map_cons]
      obtain ⟨ihc, ihj, ihch, ihm⟩ :=
        ih (stop - (start + step)) (by omega) (start + step) stop rfl hstop
      have hlen : ((l.drop start).take (min stop (start + step) - start)).length
          = min stop (start + step) - start := by
        rw [List.length_take, List.length_drop]
        rcases Nat.le_total stop (start + step) with hc | hc
        · rw [Nat.min_eq_left hc]; omega
        · rw [Nat.min_eq_right hc]; omega
      refine ⟨?_, ?_, ?_, ?_⟩
      · rw [hcons]
        refine ⟨rfl, ?_⟩
        rw [hlen]
        rcases Nat.le_total (start + step) stop with hc | hc
        · rw [Nat.min_eq_right hc]
          have e : start + (start + step - start) = start + step := by omega
          rw [e]
          exact ihc
        · have hemp : sliceChunks l (start + step) stop step = [] := by
            unfold sliceChunks
            rw [rangeStep_stop_le (start + step) stop step hc]
            rfl
          rw [hemp]
          trivial
      · rw [hcons, List.map_cons, List.flatten_cons, ihj]
        have hsplit : stop - start = (min stop (start + step) - start)
            + (stop - min stop (start + step)) := by
          rcases Nat.le_total stop (start + step) with hc | hc
          · rw [Nat.min_eq_left hc]; omega
          · rw [Nat.min_eq_right hc]; omega
        rw [hsplit, List.take_add]
        congr 1
        rw [List.drop_drop]
        rcases Nat.le_total (start + step) stop with hc | hc
        · rw [Nat.min_eq_right hc]
          have e2 : start + step - start + start = start + step := by omega
          have e3 : start + (start + step - start) = start + step := by omega
          simp only [e2, e3]
        · have e : stop - (start + step) = 0 := by omega
          rw [e, Nat.min_eq_left hc]
          simp
      · rw [hcons]
        rw [List.chain'_cons']
        refine ⟨?_, ihch⟩
        intro b hb
        have hbmem : b ∈ sliceChunks l (start + step) stop step :=
          List.mem_of_mem_head? hb
        have := (ihm b hbmem).1
        omega
      · rw [hcons]
        intro p hp
        rcases List.mem_cons.mp hp with he | ht
        · subst he
          refine ⟨Nat.le_refl start, hlt, ?_, ?_⟩
          · rw [hlen]
            rcases Nat.le_total stop (start + step) with hc | hc
            · rw [Nat.min_eq_left hc]; omega
            · rw [Nat.min_eq_right hc]; omega
          · apply List.ne_nil_of_length_pos
            rw [hlen]
            rcases Nat.le_total stop (start + step) with hc | hc
            · rw [Nat.min_eq_left hc]; omega
            · rw [Nat.min_eq_right hc]; omega
        · obtain ⟨hm1, hm2, hm3, hm4⟩ := ihm p ht
          exact ⟨by omega, hm2, hm3, hm4⟩
    · have hnil : sliceChunks l start stop step = [] := by
        unfold sliceChunks
        rw [rangeStep_stop_le start stop step hge]
        rfl
      rw [hnil]
      have h0 : stop - start = 0 := by omega
      refine ⟨trivial, ?_, List.chain'_nil, by intro p hp; cases hp⟩
      rw [h0]
      rfl

theorem mem_of_getLast?Some {α : Type} :
    ∀ (l : List α) (a : α), l.getLast? = some a → a ∈ l := by
  intro l
  induction l with
  | nil => intro a h; simp at h
  | cons x xs ih =>
    intro a h
    cases hxs : xs with
    | nil =>
      subst hxs
      simp only [List.getLast?_singleton, Option.some_inj] at h
      simp [h]
    | cons y ys =>
      subst hxs
      rw [List.getLast?_cons_cons] at h
      exact List.mem_cons_of_mem x (ih a h)

theorem contiguousFrom_append (B : List (Nat × List Nat)) :
    ∀ (A : List (Nat × List Nat)) (k : Nat), contiguousFrom k A →
      contiguousFrom (k + ((A.map Prod.snd).flatten).length) B →
      contiguousFrom k (A ++ B) := by
  intro A
  induction A with
  | nil =>
    intro k _ hB
    simpa using hB
  | cons c A ih =>
    intro k hA hB
    obtain ⟨hc, hrest⟩ := hA
    refine ⟨hc, ?_⟩
    apply ih (k + c.2.length) hrest
    have e : k + c.2.length + ((A.map Prod.snd).flatten).length
        = k + (((c :: A).map Prod.snd).flatten).length := by
      simp [List.length_append]
      omega
    rw [e]
    exact hB

theorem spray_crc32_loop_cover (indata : List Nat) (cutoff minimum maximum : Nat)
    (hmax : 0 < maximum) :
    ∀ (rest : List Nat) (position border rolling : Nat),
      border ≤ position → position + rest.length = indata.length →
      contiguousFrom border (spray_crc32_loop indata cutoff minimum maximum rest position border rolling)
      ∧ ((spray_crc32_loop indata cutoff minimum maximum rest position border rolling).map Prod.snd).flatten
          = indata.drop border
      ∧ List.Chain' (fun a b : Nat × List Nat => a.1 < b.1)
          (spray_crc32_loop indata cutoff minimum maximum rest position border rolling)
      ∧ ∀ p ∈ spray_crc32_loop indata cutoff minimum maximum rest position border rolling,
          border ≤ p.1 := by
  intro rest
  induction rest with
  | nil =>
    intro position border rolling hbp hlen
    by_cases hemp : indata.drop border = []
    · simp only [spray_crc32_loop, hemp, if_pos]
      exact ⟨trivial, by simp [hemp], List.chain'_nil, by intro p hp; cases hp⟩
    · simp only [spray_crc32_loop, if_neg hemp]
      refine ⟨⟨rfl, trivial⟩, by simp, ?_, ?_⟩
      · exact List.chain'_singleton _
      · intro p hp
        rcases List.mem_singleton.mp hp with he
        rw [he]
  | cons b rest ih =>
    intro position border rolling hbp hlen
    simp only [spray_crc32_loop]
    by_cases hcut : crc32byte b rolling < cutoff
    · rw [if_pos hcut]
      by_cases hmin : position - border < minimum
      · rw [if_pos hmin]
        exact ih (position + 1) border (crc32byte b rolling) (by omega) (by simp at hlen; omega)
      · rw [if_neg hmin]
        have hposlen : position ≤ indata.length := by simp at hlen; omega
        obtain ⟨sc, sj, sch, sm⟩ :=
          sliceChunks_cover indata maximum hmax (position - border) border position rfl hposlen
        obtain ⟨ic, ij, ich, im⟩ :=
          ih (position + 1) position (crc32byte b rolling) (by omega) (by simp at hlen; omega)
        have hjlen : (((sliceChunks indata border position maximum).map Prod.snd).flatten).length
            = position - border := by
          rw [sj, List.length_take, List.length_drop]
          omega
        refine ⟨?_, ?_, ?_, ?_⟩
        · apply contiguousFrom_append _ _ _ sc
          rw [hjlen]
          have e : border + (position - border) = position := by omega
          rw [e]
          exact ic
        · rw [List.map_append, List.flatten_append, sj, ij]
          have e2 : List.drop position indata
              = (indata.drop border).drop (position - border) := by
            rw [List.drop_drop]
            congr 1
            omega
          rw [e2, List.take_append_drop]
        · rw [List.chain'_append]
          refine ⟨sch, ich, ?_⟩
          intro x hx y hy
          have hxm : x ∈ sliceChunks indata border position maximum :=
            mem_of_getLast?Some _ x (Option.mem_def.mp hx)
          have hym : y ∈ spray_crc32_loop indata cutoff minimum maximum rest
              (position + 1) position (crc32byte b rolling) :=
            List.mem_of_mem_head? hy
          have hx2 := (sm x hxm).2.1
          have hy2 := im y hym
          omega
        · intro p hp
          rcases List.mem_append.mp hp with hc | hc
          · exact (sm p hc).1
          · have := im p hc
            omega
    · rw [if_neg hcut]
      exact ih (position + 1) border (crc32byte b rolling) (by omega) (by simp at hlen; omega)

theorem mk_spray_fixed_eq_sliceChunks (size : Nat) (l : List Nat) (h : 0 < size) :
    mk_spray_fixed size l = sliceChunks l 0 l.length size := by
  unfold mk_spray_fixed sliceChunks
  apply List.map_congr_left
  intro ib hib
  have hb := rangeStep_mem size h (l.length - 0) 0 l.length rfl ib hib
  have hlt : ib < l.length := hb.2
  congr 1
  rw [List.take_eq_take, List.length_drop]
  rcases Nat.le_total l.length (ib + size) with hc | hc
  · rw [Nat.min_eq_left hc, Nat.min_self, Nat.min_eq_right (by omega)]
  · rw [Nat.min_eq_right hc]
    have e : ib + size - ib = size := by omega
    rw [e]

/-- C2: for every input buffer, both the fixed chunker (any positive
size) and the crc32 chunker (any parameters with positive maximum) yield
(offset, chunk) pairs in strictly increasing offset order whose offsets
equal the running sum of the chunk lengths and whose concatenation
equals the input; hence the content rows dry_file inserts at these
offsets with size = len(chunk) form a contiguous, non-overlapping cover
of [0, file size). -/
theorem chunkers_yield_contiguous_cover :
    (∀ size indata, 0 < size → isCover indata (mk_spray_fixed size indata))
    ∧ (∀ initializer cutoff minimum maximum indata, 0 < maximum →
        isCover indata (mk_spray_crc32 initializer cutoff minimum maximum indata)) := by
  constructor
  · intro size indata hs
    rw [mk_spray_fixed_eq_sliceChunks size indata hs]
    obtain ⟨c, j, ch, _⟩ := sliceChunks_cover indata size hs (indata.length - 0)
      0 indata.length rfl (Nat.le_refl _)
    refine ⟨c, ?_, ch⟩
    rw [j]
    simp
  · intro initializer cutoff minimum maximum indata hm
    unfold mk_spray_crc32
    obtain ⟨c, j, ch, _⟩ := spray_crc32_loop_cover indata cutoff minimum maximum hm
      indata 0 0 initializer (Nat.le_refl 0) (by simp)
    refine ⟨c, ?_, ch⟩
    rw [j]
    simp

/-- Witness for chunkers_yield_contiguous_cover: both positivity
hypotheses discharged at concrete parameters and inputs. -/
theorem chunkers_yield_contiguous_cover_witness :
    (0 < 2 ∧ isCover [3, 4, 5] (mk_spray_fixed 2 [3, 4, 5]))
    ∧ (0 < 1 ∧ isCover [8, 9] (mk_spray_crc32 0xfacade00 0 0 1 [8, 9])) :=
  ⟨⟨by decide, chunkers_yield_contiguous_cover.1 2 [3, 4, 5] (by decide)⟩,
   ⟨by decide, chunkers_yield_contiguous_cover.2 0xfacade00 0 0 1 [8, 9] (by decide)⟩⟩

theorem sliceChunks_chunk_le (l : List Nat) (start stop step : Nat) :
    ∀ p ∈ sliceChunks l start stop step, p.2.length ≤ step := by
  intro p hp
  unfold sliceChunks at hp
  rcases List.mem_map.mp hp with ⟨ib, _hib, he⟩
  rw [← he]
  simp only [List.length_take]
  have h1 := Nat.min_le_right stop (ib + step)
  have h2 := Nat.min_le_left (min stop (ib + step) - ib)
    ((l.drop ib).length)
  omega

theorem mem_dropLast_mem {α : Type} (l : List α) (a : α) (h : a ∈ l.dropLast) :
    a ∈ l := by
  rw [List.dropLast_eq_take] at h
  exact List.mem_of_mem_take h

theorem mem_dropLast_append {α : Type} (A B : List α) (a : α)
    (h : a ∈ (A ++ B).dropLast) : a ∈ A ∨ a ∈ B.dropLast := by
  cases hB : B with
  | nil =>
    subst hB
    rw [List.append_nil] at h
    exact Or.inl (mem_dropLast_mem A a h)
  | cons y ys =>
    subst hB
    rw [List.dropLast_append_of_ne_nil A (by simp)] at h
    exact List.mem_append.mp h

theorem spray_crc32_loop_dropLast_le (indata : List Nat)
    (cutoff minimum maximum : Nat) :
    ∀ (rest : List Nat) (position border rolling : Nat),
      ∀ p ∈ (spray_crc32_loop indata cutoff minimum maximum
          rest position border rolling).dropLast,
        p.2.length ≤ maximum := by
  intro rest
  induction rest with
  | nil =>
    intro position border rolling p hp
    by_cases hemp : indata.drop border = []
    · simp only [spray_crc32_loop, hemp, if_pos] at hp
      cases hp
    · simp only [spray_crc32_loop, if_neg hemp] at hp
      simp at hp
  | cons b rest ih =>
    intro position border rolling p hp
    simp only [spray_crc32_loop] at hp
    by_cases hcut : crc32byte b rolling < cutoff
    · rw [if_pos hcut] at hp
      by_cases hmin : position - border < minimum
      · rw [if_pos hmin] at hp
        exact ih (position + 1) border (crc32byte b rolling) p hp
      · rw [if_neg hmin] at hp
        rcases mem_dropLast_append _ _ p hp with h1 | h1
        · exact sliceChunks_chunk_le indata border position maximum p h1
        · exact ih (position + 1) position (crc32byte b rolling) p h1
    · rw [if_neg hcut] at hp
      exact ih (position + 1) border (crc32byte b rolling) p hp

/-- C3 counterexample: with initializer 0xfacade00, cutoff 0, minimum 0
and maximum 1, the two-byte input [0, 0] is emitted as the single
trailing chunk [0, 0] of length 2 > 1: the trailing chunk is not
sub-split, so the claimed hard maximum over the whole emission fails. -/
theorem crc32_max_chunk_claim_false :
    ¬ (∀ p ∈ mk_spray_crc32 0xfacade00 0 0 1 [0, 0], p.2.length ≤ 1) := by
  decide

/-- C3 amended: every chunk yielded by the crc32 chunker other than the
final one (in particular every chunk produced by the sub-splitting of a
cut region) has length at most maximum; only the trailing chunk
indata[border:] may be longer. -/
theorem crc32_nontrailing_chunks_le_max (initializer cutoff minimum maximum : Nat)
    (indata : List Nat) (_hmax : 0 < maximum) :
    ∀ p ∈ (mk_spray_crc32 initializer cutoff minimum maximum indata).dropLast,
      p.2.length ≤ maximum :=
  spray_crc32_loop_dropLast_le indata cutoff minimum maximum indata 0 0 initializer

/-- Witness for crc32_nontrailing_chunks_le_max with the positivity
hypothesis discharged at maximum = 1. -/
theorem crc32_nontrailing_chunks_le_max_witness :
    0 < 1 ∧ ∀ p ∈ (mk_spray_crc32 0xfacade00 0 0 1 [0, 0]).dropLast,
      p.2.length ≤ 1 :=
  ⟨by decide, crc32_nontrailing_chunks_le_max 0xfacade00 0 0 1 [0, 0] (by decide)⟩

theorem pread_mkPreadRows_loop (dec : List Nat → List Nat) :
    ∀ (raws : List (List Nat)) (b o s : Nat),
      pread dec (mkPreadRows dec b raws) o s
        = (((raws.map dec).flatten).drop (o - b)).take ((o + s - b) - (o - b)) := by
  intro raws
  induction raws with
  | nil =>
    intro b o s
    simp [pread, preadgen, mkPreadRows]
  | cons raw rest ih =>
    intro b o s
    have ih' := ih (b + (dec raw).length) o s
    simp only [pread, preadgen] at ih'
    by_cases hP : o < b + (dec raw).length ∧ b < o + s
    · simp only [pread, preadgen, mkPreadRows, List.filterMap_cons, if_pos hP,
        List.flatten_cons]
      rw [ih']
      rw [List.map_cons, List.flatten_cons, List.drop_append_eq_append_drop,
        List.take_append_eq_append_take]
      congr 1
      · by_cases hF : o < b ∧ b + (dec raw).length < o + s
        · rw [if_pos hF]
          have e0 : o - b = 0 := by omega
          rw [e0, List.drop_zero]
          rw [List.take_of_length_le (by omega)]
        · rw [if_neg hF]
          rw [List.take_eq_take, List.length_drop]
          rcases Nat.le_total (o + s - b) (dec raw).length with hc | hc
          · rw [Nat.min_eq_left hc]
          · rw [Nat.min_eq_right hc, Nat.min_eq_right (by omega),
              Nat.min_eq_right (by omega)]
      · have e1 : o - b - (dec raw).length = o - (b + (dec raw).length) := by omega
        have e2 : o + s - b - (o - b) - ((dec raw).length - (o - b))
            = o + s - (b + (dec raw).length) - (o - (b + (dec raw).length)) := by omega
        rw [e1, List.length_drop, e2]
    · simp only [pread, preadgen, mkPreadRows, List.filterMap_cons, if_neg hP]
      rw [ih']
      rw [List.map_cons, List.flatten_cons, List.drop_append_eq_append_drop,
        List.take_append_eq_append_take]
      have hhead : ((dec raw).drop (o - b)).take ((o + s - b) - (o - b)) = [] := by
        rcases Nat.lt_or_ge o (b + (dec raw).length) with hc | hc
        · have hc2 : o + s ≤ b := by omega
          have e : o + s - b = 0 := by omega
          rw [e]
          simp
        · rw [List.drop_eq_nil_of_le (by omega)]
          simp
      rw [hhead, List.nil_append]
      have e1 : o - b - (dec raw).length = o - (b + (dec raw).length) := by omega
      have e2 : o + s - b - (o - b) - ((dec raw).length - (o - b))
          = o + s - (b + (dec raw).length) - (o - (b + (dec raw).length)) := by omega
      rw [e1, List.length_drop, e2]

/-- C1: for every file whose content rows form a contiguous,
non-overlapping cover of [0, size) in offset order (mkPreadRows dec 0
raws, with original bytes (raws.map dec).flatten) and whose chunks
decode to their recorded sizes, pread returns exactly
original[o : min(o + s, size)] for all offsets o and sizes s; in
particular the result is empty when o is at or past the end, and a
request overshooting the end returns size - o bytes, never an error
(the embedding is total because every decoded chunk matches its
recorded size). -/
theorem pread_returns_exact_slice (dec : List Nat → List Nat)
    (raws : List (List Nat)) (o s : Nat) :
    pread dec (mkPreadRows dec 0 raws) o s
      = (((raws.map dec).flatten).drop o).take
          (min (o + s) ((raws.map dec).flatten).length - o) := by
  rw [pread_mkPreadRows_loop dec raws 0 o s]
  simp only [Nat.sub_zero]
  rw [List.take_eq_take, List.length_drop]
  rcases Nat.le_total (o + s) ((raws.map dec).flatten).length with hc | hc
  · rw [Nat.min_eq_left hc]
  · rw [Nat.min_eq_right hc, Nat.min_eq_right (by omega),
      Nat.min_eq_right (by omega)]

/-- C9 counterexample: the claimed law fails in two independent ways.
First, the pair a = (a, k maps to the string 0x00) round-trips to
(a, k maps to the integer 0): algojoin emits the token k:0x00 and
algosplit parses the value back as hex. Second, the pair
(a, k maps to the integer -5) fails too: hex(-5) is -0x5, so algojoin
emits the token k:-0x5, which does not start with 0x and is re-parsed
as the string -0x5. In both cases algosplit(algojoin(a)) differs from
a, so the law does not hold for all pairs. -/
theorem algosplit_algojoin_claim_false :
    algosplit (algojoin (['a'], [(['k'], AlgoValue.str ['0', 'x', '0', '0'])]))
      ≠ some (['a'], [(['k'], AlgoValue.str ['0', 'x', '0', '0'])])
    ∧ algosplit (algojoin (['a'], [(['k'], AlgoValue.int (-5))]))
      ≠ some (['a'], [(['k'], AlgoValue.int (-5))]) := by
  refine ⟨by decide, by decide⟩

theorem splitColon_nocolon (w : List Char) (hw : ∀ c ∈ w, c ≠ ':') :
    splitColon w = [w] := by
  induction w with
  | nil => rfl
  | cons c cs ih =>
    have hc : ¬ c = ':' := hw c (List.mem_cons_self c cs)
    have ihh : splitColon cs = [cs] := ih (fun d hd => hw d (List.mem_cons_of_mem c hd))
    simp only [splitColon, if_neg hc, ihh]

theorem splitColon_pair (k w : List Char) (hk : ∀ c ∈ k, c ≠ ':')
    (hw : ∀ c ∈ w, c ≠ ':') : splitColon (k ++ ':' :: w) = [k, w] := by
  induction k with
  | nil =>
    simp [splitColon, splitColon_nocolon w hw]
  | cons c ks ih =>
    have hc : ¬ c = ':' := hk c (List.mem_cons_self c ks)
    have ihh := ih (fun d hd => hk d (List.mem_cons_of_mem c hd))
    simp only [List.cons_append, splitColon, if_neg hc, List.append_eq, ihh]

theorem hexDigitVal_code : ∀ d, d < 16 → hexDigitVal (hexDigitChar d) = some d := by
  decide

theorem hexDigitChar_nonspace_noncolon :
    ∀ d, d < 16 → pyIsSpace (hexDigitChar d) = false ∧ hexDigitChar d ≠ ':' := by
  decide

theorem toHexDigits_zero : toHexDigits 0 = [] := rfl

theorem toHexDigitsAux_fuel :
    ∀ n fuel1 fuel2, n ≤ fuel1 → n ≤ fuel2 →
      toHexDigitsAux fuel1 n = toHexDigitsAux fuel2 n := by
  intro n
  induction n using Nat.strong_induction_on with
  | _ n ih =>
    intro fuel1 fuel2 h1 h2
    cases n with
    | zero => cases fuel1 <;> cases fuel2 <;> rfl
    | succ m =>
      cases fuel1 with
      | zero => omega
      | succ f1 =>
        cases fuel2 with
        | zero => omega
        | succ f2 =>
          show toHexDigitsAux f1 ((m + 1) / 16) ++ [hexDigitChar ((m + 1) % 16)]
              = toHexDigitsAux f2 ((m + 1) / 16) ++ [hexDigitChar ((m + 1) % 16)]
          have hd : (m + 1) / 16 < m + 1 := Nat.div_lt_self (by omega) (by omega)
          rw [ih ((m + 1) / 16) hd f1 f2 (by omega) (by omega)]

theorem toHexDigits_succ (n : Nat) (h : ¬ n = 0) :
    toHexDigits n = toHexDigits (n / 16) ++ [hexDigitChar (n % 16)] := by
  obtain ⟨m, rfl⟩ : ∃ m, n = m + 1 := ⟨n - 1, by omega⟩
  have hd : (m + 1) / 16 < m + 1 := Nat.div_lt_self (by omega) (by omega)
  show toHexDigitsAux m ((m + 1) / 16) ++ [hexDigitChar ((m + 1) % 16)]
      = toHexDigitsAux ((m + 1) / 16) ((m + 1) / 16) ++ [hexDigitChar ((m + 1) % 16)]
  rw [toHexDigitsAux_fuel ((m + 1) / 16) m ((m + 1) / 16) (by omega) (Nat.le_refl _)]

theorem toHexDigits_ne_nil (n : Nat) (h : ¬ n = 0) : toHexDigits n ≠ [] := by
  rw [toHexDigits_succ n h]
  simp

theorem toHexDigits_chars :
    ∀ n, ∀ c ∈ toHexDigits n, pyIsSpace c = false ∧ c ≠ ':' := by
  intro n
  induction n using Nat.strong_induction_on with
  | _ n ih =>
    intro c hc
    by_cases h : n = 0
    · subst h
      rw [toHexDigits_zero] at hc
      cases hc
    · rw [toHexDigits_succ n h] at hc
      rcases List.mem_append.mp hc with h1 | h1
      · exact ih (n / 16) (Nat.div_lt_self (Nat.pos_of_ne_zero h) (by omega)) c h1
      · rcases List.mem_singleton.mp h1 with he
        subst he
        exact hexDigitChar_nonspace_noncolon (n % 16) (Nat.mod_lt n (by omega))

theorem parseHexDigits_append (l1 : List Char) :
    ∀ (acc : Nat) (l2 : List Char),
      parseHexDigits acc (l1 ++ l2)
        = match parseHexDigits acc l1 with
          | none => none
          | some a => parseHexDigits a l2 := by
  induction l1 with
  | nil => intro acc l2; rfl
  | cons c cs ih =>
    intro acc l2
    simp only [List.cons_append, parseHexDigits]
    cases hv : hexDigitVal c with
    | none => rfl
    | some d => exact ih (acc * 16 + d) l2

theorem toHexDigits_parse :
    ∀ n acc, parseHexDigits acc (toHexDigits n)
      = some (acc * 16 ^ (toHexDigits n).length + n) := by
  intro n
  induction n using Nat.strong_induction_on with
  | _ n ih =>
    intro acc
    by_cases h : n = 0
    · subst h
      rw [toHexDigits_zero]
      simp [parseHexDigits]
    · rw [toHexDigits_succ n h, parseHexDigits_append]
      rw [ih (n / 16) (Nat.div_lt_self (Nat.pos_of_ne_zero h) (by omega)) acc]
      simp only [parseHexDigits, hexDigitVal_code (n % 16) (Nat.mod_lt n (by omega))]
      rw [List.length_append, List.length_singleton]
      congr 1
      have hdm := Nat.div_add_mod n 16
      rw [pow_succ]
      ring_nf
      omega

theorem goodKey_chars (k : List Char) (h : goodKey k = true) :
    ∀ c ∈ k, pyIsSpace c = false ∧ c ≠ ':' := by
  simp only [goodKey, List.all_eq_true, Bool.and_eq_true, Bool.not_eq_true',
    bne_iff_ne] at h
  exact h

theorem goodValue_str (s : List Char) (h : goodValue (AlgoValue.str s) = true) :
    (∀ c ∈ s, pyIsSpace c = false ∧ c ≠ ':') ∧ startsWith0x s = false := by
  simp only [goodValue, Bool.and_eq_true, List.all_eq_true, Bool.not_eq_true',
    bne_iff_ne] at h
  exact h

theorem mkhex_int_shape (n : Int) (hn : 0 ≤ n) :
    ∃ ds : List Char, mkhex (AlgoValue.int n) = '0' :: 'x' :: ds ∧ ds ≠ []
      ∧ parseHexDigits 0 ds = some n.toNat
      ∧ ∀ c ∈ ds, pyIsSpace c = false ∧ c ≠ ':' := by
  have hni : ¬ n < 0 := by omega
  have hres : pyHexInt n = pyHex n.toNat := by
    unfold pyHexInt
    rw [if_neg hni]
  by_cases h : n.toNat = 0
  · have hz : n = 0 := by omega
    subst hz
    exact ⟨['0', '0'], by decide, by decide, by decide, by decide⟩
  · have hds := toHexDigits_ne_nil n.toNat h
    have hch := toHexDigits_chars n.toNat
    have hp : parseHexDigits 0 (toHexDigits n.toNat) = some n.toNat := by
      rw [toHexDigits_parse n.toNat 0]
      simp
    simp only [mkhex, hres, pyHex, if_neg h]
    by_cases hl : ('0' :: 'x' :: toHexDigits n.toNat).length % 2 = 1
    · rw [if_pos hl]
      refine ⟨'0' :: toHexDigits n.toNat, by simp [List.take, List.drop], by simp, ?_, ?_⟩
      · have e : ('0' :: toHexDigits n.toNat) = ['0'] ++ toHexDigits n.toNat := rfl
        rw [e, parseHexDigits_append]
        have e2 : parseHexDigits 0 ['0'] = some 0 := by decide
        rw [e2]
        exact hp
      · intro c hc
        rcases List.mem_cons.mp hc with he | hm
        · subst he
          exact ⟨by decide, by decide⟩
        · exact hch c hm
    · rw [if_neg hl]
      exact ⟨toHexDigits n.toNat, by simp [List.take, List.drop], hds, hp, hch⟩

theorem parseAlgoToken_mk (k : List Char) (v : AlgoValue)
    (hk : ∀ c ∈ k, pyIsSpace c = false ∧ c ≠ ':')
    (hv : goodValue v = true) :
    parseAlgoToken (k ++ ':' :: mkhex v) = some (k, v) := by
  cases v with
  | int n =>
    have hn : 0 ≤ n := by
      have hv2 := hv
      simp only [goodValue, decide_eq_true_eq] at hv2
      exact hv2
    obtain ⟨ds, hsh, hne, hp, hdch⟩ := mkhex_int_shape n hn
    have hmkcol : ∀ c ∈ mkhex (AlgoValue.int n), c ≠ ':' := by
      rw [hsh]
      intro c hc
      rcases List.mem_cons.mp hc with he | hc2
      · subst he; decide
      rcases List.mem_cons.mp hc2 with he | hc3
      · subst he; decide
      · exact (hdch c hc3).2
    rw [parseAlgoToken]
    rw [splitColon_pair k (mkhex (AlgoValue.int n)) (fun c hc => (hk c hc).2) hmkcol]
    simp only [hsh, startsWith0x, if_pos, parseHex0x]
    rw [if_neg hne, hp]
    have hcast : Int.ofNat n.toNat = n := by
      rw [Int.ofNat_eq_coe]
      exact Int.toNat_of_nonneg hn
    simp only [Option.map_some', hcast]
  | str s =>
    obtain ⟨hsch, hsw⟩ := goodValue_str s hv
    have hmkcol : ∀ c ∈ mkhex (AlgoValue.str s), c ≠ ':' :=
      fun c hc => (hsch c hc).2
    rw [parseAlgoToken]
    rw [splitColon_pair k (mkhex (AlgoValue.str s)) (fun c hc => (hk c hc).2) hmkcol]
    have e : mkhex (AlgoValue.str s) = s := rfl
    simp only [e, hsw, Bool.false_eq_true, if_false]

theorem lexLt_imp_le (a b : List Char) (h : lexLtChar a b = true) :
    lexLeChar a b = true := by
  unfold lexLtChar at h
  exact (Bool.and_eq_true _ _ |>.mp h).1

theorem lexLt_irrefl (a : List Char) : lexLtChar a a = false := by
  unfold lexLtChar
  exact Bool.and_not_self _

theorem sortLe_keys_eq_self :
    ∀ ps : List (List Char × AlgoValue), keysStrictSorted ps = true →
      sortLe (fun x y : List Char × AlgoValue => lexLeChar x.1 y.1) ps = ps := by
  intro ps
  induction ps with
  | nil => intro _; rfl
  | cons kv rest ih =>
    intro h
    have h' : (rest.all fun kv2 => lexLtChar kv.1 kv2.1) = true
        ∧ keysStrictSorted rest = true := by
      have he : keysStrictSorted (kv :: rest)
          = ((rest.all fun kv2 => lexLtChar kv.1 kv2.1) && keysStrictSorted rest) := rfl
      rw [he] at h
      simp only [Bool.and_eq_true] at h
      exact h
    simp only [sortLe]
    rw [ih h'.2]
    cases rest with
    | nil => rfl
    | cons kv2 rest2 =>
      have hlt : lexLtChar kv.1 kv2.1 = true :=
        List.all_eq_true.mp h'.1 kv2 (List.mem_cons_self kv2 rest2)
      simp only [insertLe, if_pos (lexLt_imp_le kv.1 kv2.1 hlt)]

theorem dictOfPairs_foldl :
    ∀ (ps m : List (List Char × AlgoValue)),
      keysStrictSorted ps = true →
      (∀ kv ∈ ps, (m.any fun x => x.1 == kv.1) = false) →
      ps.foldl (fun acc kv => dictInsert acc kv.1 kv.2) m = m ++ ps := by
  intro ps
  induction ps with
  | nil => intro m _ _; simp
  | cons kv rest ih =>
    intro m hs hm
    have hs' : (rest.all fun kv2 => lexLtChar kv.1 kv2.1) = true
        ∧ keysStrictSorted rest = true := by
      have he : keysStrictSorted (kv :: rest)
          = ((rest.all fun kv2 => lexLtChar kv.1 kv2.1) && keysStrictSorted rest) := rfl
      rw [he] at hs
      simp only [Bool.and_eq_true] at hs
      exact hs
    simp only [List.foldl_cons]
    have hins : dictInsert m kv.1 kv.2 = m ++ [(kv.1, kv.2)] := by
      unfold dictInsert
      rw [hm kv (List.mem_cons_self kv rest)]
      simp
    rw [hins]
    rw [ih (m ++ [(kv.1, kv.2)]) hs'.2 ?_]
    · simp
    · intro kv2 hkv2
      rw [List.any_append]
      rw [hm kv2 (List.mem_cons_of_mem kv hkv2)]
      simp only [Bool.false_or, List.any_cons, List.any_nil, Bool.or_false]
      cases hbe : (kv.1 == kv2.1) with
      | false => rfl
      | true =>
        have he : kv.1 = kv2.1 := eq_of_beq hbe
        have hlt : lexLtChar kv.1 kv2.1 = true :=
          List.all_eq_true.mp hs'.1 kv2 hkv2
        rw [he, lexLt_irrefl] at hlt
        cases hlt

theorem dictOfPairs_eq_self (ps : List (List Char × AlgoValue))
    (hs : keysStrictSorted ps = true) : dictOfPairs ps = ps := by
  unfold dictOfPairs
  rw [dictOfPairs_foldl ps [] hs (fun kv _ => rfl)]
  simp

theorem mkhex_nonspace (v : AlgoValue) (hv : goodValue v = true) :
    ∀ c ∈ mkhex v, pyIsSpace c = false := by
  cases v with
  | int n =>
    have hn : 0 ≤ n := by
      have hv2 := hv
      simp only [goodValue, decide_eq_true_eq] at hv2
      exact hv2
    obtain ⟨ds, hsh, _, _, hdch⟩ := mkhex_int_shape n hn
    rw [hsh]
    intro c hc
    rcases List.mem_cons.mp hc with he | hc2
    · subst he; decide
    rcases List.mem_cons.mp hc2 with he | hc3
    · subst he; decide
    · exact (hdch c hc3).1
  | str s =>
    exact fun c hc => ((goodValue_str s hv).1 c hc).1

theorem pySplitAux_token (t : List Char) :
    ∀ (acc rest : List Char), (∀ c ∈ t, pyIsSpace c = false) →
      pySplitAux acc (t ++ rest) = pySplitAux (t.reverse ++ acc) rest := by
  induction t with
  | nil => intro acc rest _; simp
  | cons c cs ih =>
    intro acc rest h
    have hc : pyIsSpace c = false := h c (List.mem_cons_self c cs)
    have e : pySplitAux acc ((c :: cs) ++ rest) = pySplitAux (c :: acc) (cs ++ rest) := by
      simp only [List.cons_append, pySplitAux, hc, Bool.false_eq_true, if_false]
      rfl
    rw [e, ih (c :: acc) rest (fun d hd => h d (List.mem_cons_of_mem c hd))]
    rw [List.reverse_cons, List.append_assoc]
    rfl

theorem pySplit_intercalate :
    ∀ toks : List (List Char),
      (∀ t ∈ toks, t ≠ [] ∧ ∀ c ∈ t, pyIsSpace c = false) →
      pySplit (intercalateSpace toks) = toks := by
  intro toks
  induction toks with
  | nil => intro _; rfl
  | cons t ts ih =>
    intro h
    obtain ⟨htne, htch⟩ := h t (List.mem_cons_self t ts)
    have hrevne : t.reverse.isEmpty = false := by
      cases hr : t.reverse with
      | nil =>
        have : t = [] := by simpa using congrArg List.reverse hr
        exact absurd this htne
      | cons c cs => rfl
    cases ts with
    | nil =>
      show pySplitAux [] (intercalateSpace [t]) = [t]
      have e2 : intercalateSpace [t] = t := rfl
      have e := pySplitAux_token t [] [] htch
      rw [List.append_nil, List.append_nil] at e
      rw [e2, e]
      have e3 : pySplitAux t.reverse []
          = if t.reverse.isEmpty then [] else [t.reverse.reverse] := rfl
      rw [e3, hrevne]
      simp
    | cons t2 ts2 =>
      show pySplitAux [] (intercalateSpace (t :: t2 :: ts2)) = t :: t2 :: ts2
      have e1 : intercalateSpace (t :: t2 :: ts2)
          = t ++ ' ' :: intercalateSpace (t2 :: ts2) := rfl
      rw [e1, pySplitAux_token t [] (' ' :: intercalateSpace (t2 :: ts2)) htch]
      rw [List.append_nil]
      have e2 : pySplitAux t.reverse (' ' :: intercalateSpace (t2 :: ts2))
          = if t.reverse.isEmpty then pySplitAux [] (intercalateSpace (t2 :: ts2))
            else t.reverse.reverse :: pySplitAux [] (intercalateSpace (t2 :: ts2)) := rfl
      rw [e2, hrevne]
      simp only [Bool.false_eq_true, if_false, List.reverse_reverse]
      congr 1
      exact ih (fun u hu => h u (List.mem_cons_of_mem t hu))

theorem pyStrip_eq_self (l : List Char)
    (h1 : ∀ c, l.head? = some c → pyIsSpace c = false)
    (h2 : ∀ c, l.getLast? = some c → pyIsSpace c = false) : pyStrip l = l := by
  unfold pyStrip
  have e1 : l.dropWhile pyIsSpace = l := by
    cases l with
    | nil => rfl
    | cons c cs =>
      rw [List.dropWhile_cons, h1 c rfl]
      simp
  rw [e1]
  have e2 : l.reverse.dropWhile pyIsSpace = l.reverse := by
    cases hr : l.reverse with
    | nil => rfl
    | cons c cs =>
      have hc : l.getLast? = some c := by
        rw [← List.head?_reverse, hr]
        rfl
      rw [List.dropWhile_cons, h2 c hc]
      simp
  rw [e2, List.reverse_reverse]

theorem getLast?_append_right {α : Type} (l1 l2 : List α) (h : l2 ≠ []) :
    (l1 ++ l2).getLast? = l2.getLast? := by
  rw [← List.head?_reverse (l1 ++ l2), ← List.head?_reverse l2, List.reverse_append]
  cases hr : l2.reverse with
  | nil =>
    have : l2 = [] := by simpa using congrArg List.reverse hr
    exact absurd this h
  | cons c cs => rfl

theorem getLast?_cons_of_ne_nil {α : Type} (x : α) (l : List α) (h : l ≠ []) :
    (x :: l).getLast? = l.getLast? := by
  cases l with
  | nil => exact absurd rfl h
  | cons y ys => rw [List.getLast?_cons_cons]

theorem intercalate_ne_nil (t : List Char) (ts : List (List Char)) (h : t ≠ []) :
    intercalateSpace (t :: ts) ≠ [] := by
  cases ts with
  | nil => exact h
  | cons t2 ts2 =>
    cases t with
    | nil => exact absurd rfl h
    | cons c cs => simp [intercalateSpace]

theorem intercalate_head? (t : List Char) (ts : List (List Char)) (h : t ≠ []) :
    (intercalateSpace (t :: ts)).head? = t.head? := by
  cases ts with
  | nil => rfl
  | cons t2 ts2 =>
    cases t with
    | nil => exact absurd rfl h
    | cons c cs => rfl

theorem intercalate_getLast?_mem :
    ∀ (ts : List (List Char)) (t : List Char), (∀ u ∈ ts, u ≠ []) →
      ∃ u ∈ t :: ts, (intercalateSpace (t :: ts)).getLast? = u.getLast? := by
  intro ts
  induction ts with
  | nil => intro t _; exact ⟨t, List.mem_singleton.mpr rfl, rfl⟩
  | cons t2 ts2 ih =>
    intro t hne
    obtain ⟨u, hu, he⟩ := ih t2 (fun u hu => hne u (List.mem_cons_of_mem t2 hu))
    refine ⟨u, List.mem_cons_of_mem t hu, ?_⟩
    have e1 : intercalateSpace (t :: t2 :: ts2)
        = t ++ ' ' :: intercalateSpace (t2 :: ts2) := rfl
    rw [e1, getLast?_append_right t _ (by simp)]
    rw [getLast?_cons_of_ne_nil ' ' _
      (intercalate_ne_nil t2 ts2 (hne t2 (List.mem_cons_self t2 ts2)))]
    exact he

theorem mapM_tokens :
    ∀ ps : List (List Char × AlgoValue),
      (∀ kv ∈ ps, goodKey kv.1 = true ∧ goodValue kv.2 = true) →
      (ps.map (fun kv => kv.1 ++ ':' :: mkhex kv.2)).mapM parseAlgoToken
        = some ps := by
  intro ps
  induction ps with
  | nil => intro _; rfl
  | cons kv rest ih =>
    intro h
    obtain ⟨hk, hv⟩ := h kv (List.mem_cons_self kv rest)
    simp only [List.map_cons, List.mapM_cons]
    rw [parseAlgoToken_mk kv.1 kv.2 (goodKey_chars kv.1 hk) hv]
    rw [ih (fun kv2 h2 => h kv2 (List.mem_cons_of_mem kv h2))]
    rfl

/-- C9 amended: algosplit inverts algojoin on every pair (name, params)
whose name is nonempty and whitespace-free (whitespace meaning the exact
set of codepoints Python str.split and str.strip treat as whitespace,
which pyIsSpace models in full, including the non-ASCII ones such as
U+00A0), whose keys are whitespace- and colon-free with strictly
increasing (hence distinct, dict-canonical) key order, and whose values
are either nonnegative integers or strings that are whitespace- and
colon-free and do not begin with 0x; consequently algojoin inverts
algosplit on every string in canonical form (the algojoin image of such
a pair). Without these restrictions the law fails: see the
counterexample for a 0x-prefixed string value and for a negative
integer, whose hex form -0x... is re-parsed as a string. -/
theorem algojoin_algosplit_round_trip (a : List Char × List (List Char × AlgoValue))
    (h : goodAlgoPair a = true) :
    algosplit (algojoin a) = some a
    ∧ (algosplit (algojoin a)).map algojoin = some (algojoin a) := by
  obtain ⟨name, params⟩ := a
  have hg : goodName name = true
      ∧ (params.all fun kv => goodKey kv.1 && goodValue kv.2) = true
      ∧ keysStrictSorted params = true := by
    have he : goodAlgoPair (name, params)
        = (goodName name && params.all (fun kv => goodKey kv.1 && goodValue kv.2)
            && keysStrictSorted params) := rfl
    rw [he] at h
    simp only [Bool.and_eq_true] at h
    exact ⟨h.1.1, h.1.2, h.2⟩
  obtain ⟨hn, hkv, hsort⟩ := hg
  have hname_ne : name ≠ [] := by
    intro hcon
    rw [hcon] at hn
    simp [goodName] at hn
  have hname_ch : ∀ c ∈ name, pyIsSpace c = false := by
    simp only [goodName, Bool.and_eq_true, List.all_eq_true, Bool.not_eq_true'] at hn
    exact hn.2
  have hkv' : ∀ kv ∈ params, goodKey kv.1 = true ∧ goodValue kv.2 = true := by
    simp only [List.all_eq_true, Bool.and_eq_true] at hkv
    exact hkv
  have hjoin : algojoin (name, params)
      = intercalateSpace (name :: params.map (fun kv => kv.1 ++ ':' :: mkhex kv.2)) := by
    unfold algojoin
    rw [sortLe_keys_eq_self params hsort]
  have htokprops : ∀ t ∈ name :: params.map (fun kv => kv.1 ++ ':' :: mkhex kv.2),
      t ≠ [] ∧ ∀ c ∈ t, pyIsSpace c = false := by
    intro t ht
    rcases List.mem_cons.mp ht with he | hm
    · subst he; exact ⟨hname_ne, hname_ch⟩
    · rcases List.mem_map.mp hm with ⟨kv, hkvmem, he⟩
      subst he
      obtain ⟨hk, hv⟩ := hkv' kv hkvmem
      refine ⟨by simp, ?_⟩
      intro c hc
      rcases List.mem_append.mp hc with h1 | h1
      · exact (goodKey_chars kv.1 hk c h1).1
      rcases List.mem_cons.mp h1 with he2 | h2
      · subst he2; decide
      · exact mkhex_nonspace kv.2 hv c h2
  have hstrip : pyStrip (intercalateSpace
        (name :: params.map (fun kv => kv.1 ++ ':' :: mkhex kv.2)))
      = intercalateSpace (name :: params.map (fun kv => kv.1 ++ ':' :: mkhex kv.2)) := by
    apply pyStrip_eq_self
    · intro c hc
      rw [intercalate_head? name _ hname_ne] at hc
      exact hname_ch c (List.mem_of_mem_head? (Option.mem_def.mpr hc))
    · intro c hc
      obtain ⟨u, hu, he⟩ := intercalate_getLast?_mem
        (params.map (fun kv => kv.1 ++ ':' :: mkhex kv.2)) name
        (fun u hu => (htokprops u (List.mem_cons_of_mem name hu)).1)
      rw [he] at hc
      exact (htokprops u hu).2 c (mem_of_getLast?Some u c hc)
  have hsplit : pySplit (intercalateSpace
        (name :: params.map (fun kv => kv.1 ++ ':' :: mkhex kv.2)))
      = name :: params.map (fun kv => kv.1 ++ ':' :: mkhex kv.2) :=
    pySplit_intercalate _ htokprops
  have hmain : algosplit (algojoin (name, params)) = some (name, params) := by
    rw [hjoin]
    unfold algosplit
    rw [hstrip, hsplit]
    simp only []
    rw [mapM_tokens params hkv']
    simp only [Option.map_some']
    rw [dictOfPairs_eq_self params hsort]
  exact ⟨hmain, by rw [hmain]; rfl⟩

/-- Witness for algojoin_algosplit_round_trip: the pair
(fixed, size maps to 0x2000) is good and round-trips. -/
theorem algojoin_algosplit_round_trip_witness :
    goodAlgoPair (['f', 'i', 'x', 'e', 'd'],
        [(['s', 'i', 'z', 'e'], AlgoValue.int 8192)]) = true
    ∧ algosplit (algojoin (['f', 'i', 'x', 'e', 'd'],
        [(['s', 'i', 'z', 'e'], AlgoValue.int 8192)]))
      = some (['f', 'i', 'x', 'e', 'd'],
        [(['s', 'i', 'z', 'e'], AlgoValue.int 8192)]) :=
  ⟨by decide,
   (algojoin_algosplit_round_trip (['f', 'i', 'x', 'e', 'd'],
      [(['s', 'i', 'z', 'e'], AlgoValue.int 8192)]) (by decide)).1⟩
